import Mathlib

/-!
Verification of the unit-of-measure algebra in `hg_oap/units/unit.py`.

Shallow embedding conventions:
* Python objects live in a heap (`List UnitCell`); a unit is its heap index,
  so object identity (`is`) is index equality and `id(u)` is the index.
* `Decimal` values and the external `Dimension` algebra are modelled as `ℚ`
  (exact decimal arithmetic; dimensions form a multiplicative abelian group,
  pairwise-coprime numbers standing for independent base dimensions).
* The external `UnitSystem` registry (its three interning tables and
  `conversion_factor`) and the external `Quantity` are modelled from the spec.
* Recursive attribute evaluation (lazy `ExprClass` fields) is modelled with an
  explicit fuel argument; `none`/`.error .outOfFuel` marks exhaustion, which
  does not occur on heaps built through the constructors.
-/

set_option autoImplicit false

/-- One heap cell per concrete unit object, holding exactly the fields the
Python constructors store with `object.__setattr__` (a `none` name means the
field was not explicitly set, so the lazy dataclass default applies). -/
inductive UnitCell where
  | primary (name : Option String) (dimension : ℚ)
  | derived (name : Option String) (primary_unit : ℕ) (ratioV : ℚ)
  | offsetDerived (name : Option String) (primary_unit : ℕ) (ratioV : ℚ) (offsetV : ℚ)
  | diffDerived (name : Option String) (offset_unit : ℕ)
  | complex (name : Option String) (components : List (ℕ × ℤ)) (scale : Option ℚ)
  deriving DecidableEq, Repr

/-- Modelled from the spec: the external `Quantity`, an immutable pair of a
numeric value and a unit (here: the unit's heap index). -/
structure Quantity where
  value : ℚ
  unit : ℕ
  deriving DecidableEq, Repr

/-- An atom of a Python tuple used as a key in the `__derived_units__` dict:
`id(u)` (an int), a unit object itself, a `Decimal`, or the string `'diff'`. -/
inductive DAtom where
  | idA (n : ℕ)
  | uA (u : ℕ)
  | qA (x : ℚ)
  | diffA
  deriving DecidableEq, Repr

/-- Python `==` on key atoms.  `int == Decimal` compares numerically;
a unit never equals an int or a string (its dataclass `__eq__` returns
`NotImplemented` for other classes and falls back to `False`).  Two unit
atoms are compared by identity here: the dict probes performed by the code
never pit one stored unit atom against a different unit atom (lookup keys
use `id(u)` where stored keys use `u` and vice versa), so the structural
fallback of `PyObject_RichCompareBool` is never reached on distinct units. -/
def datomEq : DAtom → DAtom → Bool
  | .idA n, .idA m => n = m
  | .uA u, .uA v => u = v
  | .qA x, .qA y => x = y
  | .diffA, .diffA => true
  | .idA n, .qA y => (n : ℚ) = y
  | .qA x, .idA m => x = (m : ℚ)
  | _, _ => false

/-- A key of the `__derived_units__` dict: a Python tuple of atoms. -/
abbrev DKey := List DAtom

/-- Python `==` on key tuples: equal length and pairwise equal atoms. -/
def dkeyEq (a b : DKey) : Bool :=
  a.length = b.length && (a.zip b).all fun e => datomEq e.1 e.2

/-- A key of the `__complex_units__` dict: the ordered `(id(u), p)` pairs plus
the scale when it was given (Python appends the scale to the tuple; two keys
with and without the scale suffix never compare equal). -/
abbrev CKey := List (ℕ × ℤ) × Option ℚ

/-- Modelled from the spec: the state of one `UnitSystem` instance — the heap
of unit objects plus the three interning tables (`__primary_units__`,
`__derived_units__`, `__complex_units__`) and the registered cross-dimension
conversion factors consulted by `conversion_factor`. -/
structure St where
  heap : List UnitCell
  primary_units : List (ℚ × ℕ)
  derived_units : List (DKey × ℕ)
  complex_units : List (CKey × ℕ)
  factors : List (ℚ × Quantity)
  deriving DecidableEq, Repr

/-- The empty unit system. -/
def St.empty : St := ⟨[], [], [], [], []⟩

/-- `dict.get` on `__derived_units__`. -/
def dGet (t : List (DKey × ℕ)) (k : DKey) : Option ℕ :=
  (t.find? fun e => dkeyEq e.1 k).map (·.2)

/-- `dict.__setitem__` on `__derived_units__` (overwrite or append). -/
def dSet (t : List (DKey × ℕ)) (k : DKey) (v : ℕ) : List (DKey × ℕ) :=
  if t.any fun e => dkeyEq e.1 k then
    t.map fun e => if dkeyEq e.1 k then (e.1, v) else e
  else t ++ [(k, v)]

/-- `dict.get` on `__complex_units__`. -/
def cGet (t : List (CKey × ℕ)) (k : CKey) : Option ℕ :=
  (t.find? fun e => e.1 = k).map (·.2)

/-- `dict.__setitem__` on `__complex_units__`. -/
def cSet (t : List (CKey × ℕ)) (k : CKey) (v : ℕ) : List (CKey × ℕ) :=
  if t.any fun e => e.1 = k then
    t.map fun e => if e.1 = k then (e.1, v) else e
  else t ++ [(k, v)]

/-- `dict.get` on `__primary_units__` (keyed by `Dimension`, structural
equality). -/
def pGet (t : List (ℚ × ℕ)) (k : ℚ) : Option ℕ :=
  (t.find? fun e => e.1 = k).map (·.2)

/-- `dict.__setitem__` on `__primary_units__`. -/
def pSet (t : List (ℚ × ℕ)) (k : ℚ) (v : ℕ) : List (ℚ × ℕ) :=
  if t.any fun e => e.1 = k then
    t.map fun e => if e.1 = k then (e.1, v) else e
  else t ++ [(k, v)]

/-- The effective `scale` field of a `ComplexUnit`: the stored value, or the
dataclass default `Decimal(1)`. -/
def effScale (sc : Option ℚ) : ℚ := sc.getD 1

/-- The `ratio` attribute of a unit (`PrimaryUnit.ratio` defaults to 1;
`DerivedUnit`/`OffsetDerivedUnit` store it; `DiffDerivedUnit` lazily reads
`offset_unit.ratio`; `ComplexUnit` lazily computes
`reduce(mul, (pow(u.ratio, m) for u, m in components)) * scale`, which Python
only evaluates on non-empty component tuples — the `1` initial value below is
never consulted on heaps built by the operators, whose component lists are
non-empty). -/
def ratioOf (h : List UnitCell) : ℕ → ℕ → Option ℚ
  | 0, _ => none
  | f + 1, u =>
    match h[u]? with
    | some (.primary _ _) => some 1
    | some (.derived _ _ r) => some r
    | some (.offsetDerived _ _ r _) => some r
    | some (.diffDerived _ ou) => ratioOf h f ou
    | some (.complex _ comps sc) =>
      (comps.mapM fun e => (ratioOf h f e.1).map (· ^ e.2)).map
        fun rs => rs.prod * effScale sc
    | none => none

/-- The `dimension` attribute of a unit (stored on `PrimaryUnit`; lazily
`primary_unit.dimension` on derived variants; on `DiffDerivedUnit` the lazy
`primary_unit` is `offset_unit.primary_unit`, so its dimension equals the
offset unit's; `ComplexUnit` computes `reduce(mul, (u.dimension ** m ...))`). -/
def dimOf (h : List UnitCell) : ℕ → ℕ → Option ℚ
  | 0, _ => none
  | f + 1, u =>
    match h[u]? with
    | some (.primary _ d) => some d
    | some (.derived _ p _) => dimOf h f p
    | some (.offsetDerived _ p _ _) => dimOf h f p
    | some (.diffDerived _ ou) => dimOf h f ou
    | some (.complex _ comps _) =>
      (comps.mapM fun e => (dimOf h f e.1).map (· ^ e.2)).map List.prod
    | none => none

/-- Python `str(x)` of an optional name: `None` prints as `"None"` inside an
f-string. -/
def pyStr (o : Option String) : String := o.getD "None"

/-- `ComplexUnit._build_name` given the component names/exponents and the
scale: `{scale}*` prefix when the scale is not 1, `*`-joined numerator of
positive powers (or `"1"`), `/`-prefixed denominator of negative powers. -/
def assembleName (prs : List (String × ℤ)) (sc : ℚ) : String :=
  let scs := if sc ≠ 1 then s!"{sc}*" else ""
  let ups := (prs.filter fun e => 0 < e.2).map
    fun e => if e.2 = 1 then e.1 else s!"{e.1}**{e.2}"
  let up := if ups = [] then "1" else String.intercalate "*" ups
  let dns := (prs.filter fun e => e.2 < 0).map
    fun e => if e.2 = -1 then e.1 else s!"{e.1}**{-e.2}"
  let dn := if dns = [] then "" else "/" ++ String.intercalate "*" dns
  scs ++ up ++ dn

/-- The effective `name` attribute: the explicitly stored name, otherwise the
lazy dataclass default — `None` for `PrimaryUnit`, `f"{ratio}*{primary.name}"`
for `DerivedUnit`/`OffsetDerivedUnit`, `f"{offset_unit.name}_diff"` for
`DiffDerivedUnit`, `_build_name()` for `ComplexUnit`. -/
def effName (h : List UnitCell) : ℕ → ℕ → Option (Option String)
  | 0, _ => none
  | f + 1, u =>
    match h[u]? with
    | some (.primary n _) => some n
    | some (.derived n p r) =>
      match n with
      | some x => some (some x)
      | none => (effName h f p).map fun pn => some s!"{r}*{pyStr pn}"
    | some (.offsetDerived n p r _) =>
      match n with
      | some x => some (some x)
      | none => (effName h f p).map fun pn => some s!"{r}*{pyStr pn}"
    | some (.diffDerived n ou) =>
      match n with
      | some x => some (some x)
      | none => (effName h f ou).map fun onm => some (pyStr onm ++ "_diff")
    | some (.complex n comps sc) =>
      match n with
      | some x => some (some x)
      | none =>
        (comps.mapM fun e => (effName h f e.1).map fun nm => (pyStr nm, e.2)).map
          fun prs => some (assembleName prs (effScale sc))
    | none => none

/-- The `primary_unit` attribute (stored on `DerivedUnit`/`OffsetDerivedUnit`,
lazily `offset_unit.primary_unit` on `DiffDerivedUnit`; absent elsewhere). -/
def primaryUnitAttr (h : List UnitCell) : ℕ → ℕ → Option ℕ
  | 0, _ => none
  | f + 1, u =>
    match h[u]? with
    | some (.derived _ p _) => some p
    | some (.offsetDerived _ p _ _) => some p
    | some (.diffDerived _ ou) => primaryUnitAttr h f ou
    | _ => none

/-- The `_is_multiplicative` class flag: `False` exactly on
`OffsetDerivedUnit` (`DiffDerivedUnit` re-overrides it to `True`); `none` on a
dangling reference (attribute access on a non-unit). -/
def isMult (h : List UnitCell) (u : ℕ) : Option Bool :=
  match h[u]? with
  | some (.offsetDerived _ _ _ _) => some false
  | some _ => some true
  | none => none

/-- `_to_components(power)`: any unit is one atomic `(self, power)` component,
except a `ComplexUnit` with no explicitly-set name and scale exactly 1, which
exposes its own components with exponents multiplied by `power` (returned
verbatim when `power == 1`). -/
def tcomp (h : List UnitCell) (u : ℕ) (p : ℤ) : List (ℕ × ℤ) :=
  match h[u]? with
  | some (.complex nm comps sc) =>
    if nm.isSome ∨ effScale sc ≠ 1 then [(u, p)]
    else if p = 1 then comps else comps.map fun e => (e.1, e.2 * p)
  | _ => [(u, p)]

/-- `components[u] = p` on a `defaultdict(int)` modelled as an ordered
association list (update in place, else append). -/
def setComp (l : List (ℕ × ℤ)) (u : ℕ) (p : ℤ) : List (ℕ × ℤ) :=
  if l.any fun e => e.1 = u then
    l.map fun e => if e.1 = u then (e.1, p) else e
  else l ++ [(u, p)]

/-- `components[u] += p` on a `defaultdict(int)`. -/
def addComp (l : List (ℕ × ℤ)) (u : ℕ) (p : ℤ) : List (ℕ × ℤ) :=
  if l.any fun e => e.1 = u then
    l.map fun e => if e.1 = u then (e.1, e.2 + p) else e
  else l ++ [(u, p)]

/-- `defaultdict(int, pairs)`: build the dict left to right (a duplicate key
overwrites). -/
def dictInit (l : List (ℕ × ℤ)) : List (ℕ × ℤ) :=
  l.foldl (fun acc e => setComp acc e.1 e.2) []

/-- Fold a second component list into the dict, summing exponents. -/
def mergeComps (init adds : List (ℕ × ℤ)) : List (ℕ × ℤ) :=
  adds.foldl (fun acc e => addComp acc e.1 e.2) init

/-- Python exceptions surfaced by the embedded code.  `noConversionFactor`
models the `ValueError(f"cannot convert {self} to {to} and no conversion
factor for {to.dimension/self.dimension}")` raised by `Unit.convert`: it
carries the two units and the dimension quotient named in the message.
`outOfFuel` is a modelling artifact for exhausted recursion fuel. -/
inductive PyErr where
  | valueError (msg : String)
  | assertionError
  | attributeError
  | noConversionFactor (src tgt : ℕ) (quot : ℚ)
  | outOfFuel
  deriving DecidableEq, Repr

/-- `ComplexUnit.__new__` after its `Quantity` preamble: `components` is the
component tuple and `scale` is the quantity's value when one was passed (else
`None`).  Look up the interning key first; on a miss, `assert` that every
component is multiplicative, then allocate and register the new object. -/
def complexNew (s : St) (comps : List (ℕ × ℤ)) (scale : Option ℚ)
    (name : Option String) : Except PyErr (St × ℕ) :=
  let key : CKey := (comps, scale)
  match cGet s.complex_units key with
  | some d => .ok (s, d)
  | none =>
    match comps.mapM fun e => isMult s.heap e.1 with
    | none => .error .attributeError
    | some bs =>
      if bs.all id then
        let uid := s.heap.length
        .ok ({ s with
                heap := s.heap ++ [.complex name comps scale]
                complex_units := cSet s.complex_units key uid }, uid)
      else .error .assertionError

/-- `PrimaryUnit.__new__`: one primary unit per dimension, interned in
`__primary_units__` keyed by the dimension (a later name is ignored). -/
def primaryNew (s : St) (name : Option String) (d : ℚ) : St × ℕ :=
  match pGet s.primary_units d with
  | some u => (s, u)
  | none =>
    let uid := s.heap.length
    ({ s with
        heap := s.heap ++ [.primary name d]
        primary_units := pSet s.primary_units d uid }, uid)

/-- `DerivedUnit.__new__`: unwrap a `Quantity` argument into `(unit, value)`;
if the (resulting) primary unit is exactly a `DerivedUnit`, fold its ratio in
(`ratio *= primary_unit.ratio` before `primary_unit = primary_unit.primary_unit`)
and substitute its primary.  Then probe `__derived_units__` with the key
`(id(primary_unit), ratio)` but register the new object under
`(primary_unit, ratio)` — exactly as the source does. -/
def derivedNew (s : St) (arg : ℕ ⊕ Quantity) (ratioArg : ℚ)
    (name : Option String) : St × ℕ :=
  let pr : ℕ × ℚ :=
    match arg with
    | .inr q => (q.unit, q.value)
    | .inl u => (u, ratioArg)
  let pr2 : ℕ × ℚ :=
    match s.heap[pr.1]? with
    | some (.derived _ p pratio) => (p, pr.2 * pratio)
    | _ => pr
  match dGet s.derived_units [.idA pr2.1, .qA pr2.2] with
  | some u => (s, u)
  | none =>
    let uid := s.heap.length
    ({ s with
        heap := s.heap ++ [.derived name pr2.1 pr2.2]
        derived_units := dSet s.derived_units [.uA pr2.1, .qA pr2.2] uid }, uid)

/-- `OffsetDerivedUnit.__new__`: if the primary unit is exactly a
`DerivedUnit`, the source first reassigns `primary_unit = primary_unit.primary_unit`
and only then runs `ratio *= primary_unit.ratio`, i.e. it multiplies by the
ratio of the new (primary) unit, not the derived one.  Probe
`__derived_units__` with `(primary_unit, ratio, offset)` but register under
`(id(primary_unit), ratio, offset)` — exactly as the source does. -/
def offsetNew (s : St) (pu : ℕ) (ratioArg offsetArg : ℚ)
    (name : Option String) : Except PyErr (St × ℕ) :=
  let step : Except PyErr (ℕ × ℚ) :=
    match s.heap[pu]? with
    | some (.derived _ p _) =>
      match ratioOf s.heap s.heap.length p with
      | some pr => .ok (p, ratioArg * pr)
      | none => .error .attributeError
    | _ => .ok (pu, ratioArg)
  step.bind fun pr2 =>
    match dGet s.derived_units [.uA pr2.1, .qA pr2.2, .qA offsetArg] with
    | some u => .ok (s, u)
    | none =>
      let uid := s.heap.length
      .ok ({ s with
              heap := s.heap ++ [.offsetDerived name pr2.1 pr2.2 offsetArg]
              derived_units :=
                dSet s.derived_units [.idA pr2.1, .qA pr2.2, .qA offsetArg] uid }, uid)

/-- `DiffDerivedUnit.__new__`: only an `OffsetDerivedUnit` may be the source;
interned in `__derived_units__` under `(id(offset_unit), 'diff')` (the same
key for lookup and store). -/
def diffNew (s : St) (ou : ℕ) (name : Option String) : Except PyErr (St × ℕ) :=
  match s.heap[ou]? with
  | some (.offsetDerived _ _ _ _) =>
    match dGet s.derived_units [.idA ou, .diffA] with
    | some u => .ok (s, u)
    | none =>
      let uid := s.heap.length
      .ok ({ s with
              heap := s.heap ++ [.diffDerived name ou]
              derived_units := dSet s.derived_units [.idA ou, .diffA] uid }, uid)
  | _ => .error (.valueError "cannot create a diff unit")

/-- `a.__mul__(b)` (identical bodies on `PrimaryUnit`, `DerivedUnit` and
`ComplexUnit`, the latter folding `self._to_components()` in instead of a
single `(self, 1)`; uniformly: seed the exponent dict with
`b._to_components()`, fold in `a._to_components()`, build a `ComplexUnit`). -/
def unitMul (s : St) (a b : ℕ) : Except PyErr (St × ℕ) :=
  match s.heap[b]? with
  | some _ =>
    complexNew s (mergeComps (dictInit (tcomp s.heap b 1)) (tcomp s.heap a 1)) none none
  | none => .error (.valueError "cannot multiply")

/-- `a.__truediv__(b)`: as multiplication but seeding with
`b._to_components(-1)`. -/
def unitDiv (s : St) (a b : ℕ) : Except PyErr (St × ℕ) :=
  match s.heap[b]? with
  | some _ =>
    complexNew s (mergeComps (dictInit (tcomp s.heap b (-1))) (tcomp s.heap a 1)) none none
  | none => .error (.valueError "cannot divide")

/-- `PrimaryUnit.__pow__(power)`: a one-component `ComplexUnit` at the
requested power. -/
def primaryPow (s : St) (u : ℕ) (n : ℤ) : Except PyErr (St × ℕ) :=
  complexNew s [(u, n)] none none

/-- `DerivedUnit.__pow__(power)`: the source ignores `power` and always builds
`ComplexUnit(components=((self, 2),))`. -/
def derivedPow (s : St) (u : ℕ) (_n : ℤ) : Except PyErr (St × ℕ) :=
  complexNew s [(u, 2)] none none

/-- `ComplexUnit.__pow__(power)`: rebuild from `(u, p * power)` pairs; neither
the scale nor an explicit name is passed on. -/
def complexPow (s : St) (u : ℕ) (n : ℤ) : Except PyErr (St × ℕ) :=
  match s.heap[u]? with
  | some (.complex _ comps _) =>
    complexNew s (comps.map fun e => (e.1, e.2 * n)) none none
  | _ => .error .attributeError

/-- Modelled from the spec: `UnitSystem.conversion_factor(dimension_quotient)`
returns the registered `Quantity` bridging the two dimensions, or `None`.
A returned `Quantity` is always truthy (it defines no `__bool__`/`__len__`),
so the walrus `elif` in `Unit.convert` takes the factor branch exactly when
the lookup is not `None`. -/
def lookupFactor (s : St) (q : ℚ) : Option Quantity :=
  (s.factors.find? fun e => e.1 = q).map (·.2)

/-- `PrimaryUnit._do_convert`: an `OffsetDerivedUnit` target gives
`value / to.ratio - to.offset`, any other `DerivedUnit` (including a diff
unit, whose `ratio` is read through its offset unit) gives
`value / to.ratio`; anything else hits `assert False`. -/
def primaryDoConvert (h : List UnitCell) (fuel : ℕ) (v : ℚ) (t : ℕ) :
    Except PyErr ℚ :=
  match h[t]? with
  | some (.offsetDerived _ _ r o) => .ok (v / r - o)
  | some (.derived _ _ r) => .ok (v / r)
  | some (.diffDerived _ _) =>
    match ratioOf h fuel t with
    | some r => .ok (v / r)
    | none => .error .attributeError
  | some _ => .error .assertionError
  | none => .error .attributeError

/-- `_do_convert` dispatched on the dynamic class of `self`:
`DerivedUnit` (and `DiffDerivedUnit`) reach the primary representation with
`value * self.ratio`, `OffsetDerivedUnit` with `(value + offset) * ratio`,
then hand off to `primary_unit._do_convert` unless `to` *is* the primary;
`ComplexUnit` returns `(self.ratio / to.ratio) * value`. -/
def doConvert (h : List UnitCell) : ℕ → ℕ → ℚ → ℕ → Except PyErr ℚ
  | 0, _, _, _ => .error .outOfFuel
  | f + 1, u, v, t =>
    match h[u]? with
    | some (.primary _ _) => primaryDoConvert h f v t
    | some (.derived _ p r) =>
      let pv := v * r
      if t = p then .ok pv else doConvert h f p pv t
    | some (.offsetDerived _ p r o) =>
      let pv := (v + o) * r
      if t = p then .ok pv else doConvert h f p pv t
    | some (.diffDerived _ ou) =>
      match ratioOf h f u, primaryUnitAttr h f ou with
      | some r, some p =>
        let pv := v * r
        if t = p then .ok pv else doConvert h f p pv t
      | _, _ => .error .attributeError
    | some (.complex _ _ _) =>
      match ratioOf h f u, ratioOf h f t with
      | some ru, some rt => .ok (ru / rt * v)
      | _, _ => .error .attributeError
    | none => .error .attributeError

/-- `Unit.convert(value, to)`: identity short-circuit when `to is self`;
same dimension (`is` on interned `Dimension` objects, modelled as equality of
the structural dimension values) delegates to `_do_convert`; otherwise consult
`conversion_factor(to.dimension / self.dimension)` — multiply the value by the
factor, multiply `self` by the factor's unit, and recurse, or raise the
"cannot convert" `ValueError` when no factor is registered. -/
def convert : ℕ → St → ℕ → ℚ → ℕ → Except PyErr (ℚ × St)
  | 0, s, u, v, t => if t = u then .ok (v, s) else .error .outOfFuel
  | f + 1, s, u, v, t =>
    if t = u then .ok (v, s)
    else
      match dimOf s.heap (f + 1) u, dimOf s.heap (f + 1) t with
      | some du, some dt =>
        if du = dt then (doConvert s.heap (f + 1) u v t).map fun x => (x, s)
        else
          match lookupFactor s (dt / du) with
          | some q =>
            (unitMul s u q.unit).bind fun sm =>
              convert f sm.1 sm.2 (v * q.value) t
          | none => .error (.noConversionFactor u t (dt / du))
      | _, _ => .error .attributeError

/-- Hash-relevant value of a Python object appearing in a unit's field tuple:
an (optional) string, a `Decimal`/`Dimension` (both `ℚ` here), an int
exponent, or a nested tuple.  Equal `HK` values yield equal Python hashes,
since `hash` is a pure function of these values. -/
inductive HK where
  | ostr (s : Option String)
  | q (x : ℚ)
  | z (i : ℤ)
  | tup (l : List HK)

/-- The field tuple each concrete variant's `__hash__` hashes.  `Unit` defines
`__hash__ = id(self)`, but each concrete subclass is decorated with
`@dataclass(frozen=True)` and `eq` defaulting to true while defining no
`__hash__` of its own, so the decorator installs the generated field-tuple
hash on every concrete class (CPython `dataclasses._process_class`,
`_hash_action` with `has_explicit_hash = False`).  Field order follows the
dataclass field order (base fields first); `OffsetDerivedUnit.diff` is
declared with `field(hash=False)` and is excluded; unit-valued fields hash
through their own class's generated hash, hence recursively. -/
def hashKey (h : List UnitCell) : ℕ → ℕ → Option HK
  | 0, _ => none
  | f + 1, u =>
    match h[u]? with
    | some (.primary _ _) =>
      -- fields: name, dimension, ratio (= Decimal(1))
      do
        let n ← effName h f u
        let d ← dimOf h f u
        pure (.tup [.ostr n, .q d, .q 1])
    | some (.derived _ p r) =>
      -- fields: name, dimension, primary_unit, ratio
      do
        let n ← effName h f u
        let d ← dimOf h f u
        let pk ← hashKey h f p
        pure (.tup [.ostr n, .q d, pk, .q r])
    | some (.offsetDerived _ p r o) =>
      -- fields: name, dimension, primary_unit, ratio, offset (diff: hash=False)
      do
        let n ← effName h f u
        let d ← dimOf h f u
        let pk ← hashKey h f p
        pure (.tup [.ostr n, .q d, pk, .q r, .q o])
    | some (.diffDerived _ ou) =>
      -- fields: name, dimension, primary_unit, ratio, offset_unit
      do
        let n ← effName h f u
        let d ← dimOf h f u
        let p ← primaryUnitAttr h f ou
        let pk ← hashKey h f p
        let r ← ratioOf h f u
        let ok ← hashKey h f ou
        pure (.tup [.ostr n, .q d, pk, .q r, ok])
    | some (.complex _ comps sc) =>
      -- fields: name, dimension, components, scale
      do
        let n ← effName h f u
        let d ← dimOf h f u
        let cks ← comps.mapM fun e => (hashKey h f e.1).map fun k => HK.tup [k, .z e.2]
        pure (.tup [.ostr n, .q d, .tup cks, .q (effScale sc)])
    | none => none

/-- Python `u == w` on unit objects.  No unit class defines `__eq__`, so each
`@dataclass` decoration (with `eq` defaulting to true) generates the
structural one: same concrete class, then the field tuples compared pairwise
with the `PyObject_RichCompareBool` identity fast path on each element.
All field attributes (including lazy ones) are evaluated when the tuples are
built, then compared left to right with short-circuiting.  On two distinct
field-equal `OffsetDerivedUnit`s the comparison of their `diff` fields loops
back to comparing the offset units themselves, which in Python ends in a
`RecursionError` — modelled by fuel exhaustion (`none`). -/
def structEq (h : List UnitCell) : ℕ → ℕ → ℕ → Option Bool
  | 0, a, b => if a = b then some true else none
  | f + 1, a, b =>
    if a = b then some true
    else
      match h[a]?, h[b]? with
      | some (.primary _ _), some (.primary _ _) => do
        let na ← effName h f a
        let nb ← effName h f b
        let da ← dimOf h f a
        let db ← dimOf h f b
        pure (na = nb && da = db)
      | some (.derived _ pa ra), some (.derived _ pb rb) => do
        let na ← effName h f a
        let nb ← effName h f b
        let da ← dimOf h f a
        let db ← dimOf h f b
        if na ≠ nb then pure false
        else if da ≠ db then pure false
        else do
          let pe ← structEq h f pa pb
          pure (pe && ra = rb)
      | some (.offsetDerived _ pa ra oa), some (.offsetDerived _ pb rb ob) => do
        let na ← effName h f a
        let nb ← effName h f b
        let da ← dimOf h f a
        let db ← dimOf h f b
        if na ≠ nb then pure false
        else if da ≠ db then pure false
        else do
          let pe ← structEq h f pa pb
          if !(pe && ra = rb && oa = ob) then pure false
          else
            -- the diff fields: every other field of the two (distinct) diff
            -- units is derived from already-equal data, so their comparison
            -- reduces to comparing the offset units again
            structEq h f a b
      | some (.diffDerived _ oua), some (.diffDerived _ oub) => do
        let na ← effName h f a
        let nb ← effName h f b
        let da ← dimOf h f a
        let db ← dimOf h f b
        let pa ← primaryUnitAttr h f oua
        let pb ← primaryUnitAttr h f oub
        let ra ← ratioOf h f a
        let rb ← ratioOf h f b
        if na ≠ nb then pure false
        else if da ≠ db then pure false
        else do
          let pe ← structEq h f pa pb
          if !(pe && ra = rb) then pure false
          else structEq h f oua oub
      | some (.complex _ ca sa), some (.complex _ cb sb) => do
        let na ← effName h f a
        let nb ← effName h f b
        let da ← dimOf h f a
        let db ← dimOf h f b
        if na ≠ nb then pure false
        else if da ≠ db then pure false
        else if ca.length ≠ cb.length then pure false
        else do
          let ce ← (ca.zip cb).foldlM
            (fun acc e =>
              if !acc then pure false
              else do
                let ue ← structEq h f e.1.1 e.2.1
                pure (ue && e.1.2 = e.2.2))
            true
          pure (ce && effScale sa = effScale sb)
      | some _, some _ => some false
      | _, _ => none

/-- Well-formedness of the `__complex_units__` table: every entry's value is a
`ComplexUnit` cell whose components and scale are exactly the entry's key.
Construction maintains this (the key is built from the object being
registered). -/
def complexWFb (s : St) : Bool :=
  s.complex_units.all fun e =>
    match s.heap[e.2]? with
    | some (.complex _ comps sc) => comps = e.1.1 && sc = e.1.2
    | _ => false

/-- A unit usable as a component in ratio/dimension products: both attributes
evaluate and are nonzero (Python raises on `Decimal(0) ** -1`, and the
dimension group has no zero). -/
def goodB (h : List UnitCell) (fuel : ℕ) (i : ℕ) : Bool :=
  match ratioOf h fuel i, dimOf h fuel i with
  | some r, some d => r ≠ 0 && d ≠ 0
  | _, _ => false

/-- `reduce(mul, (pow(u.ratio, m) for u, m in l))` over a component list. -/
def oprodR (h : List UnitCell) (fuel : ℕ) (l : List (ℕ × ℤ)) : Option ℚ :=
  (l.mapM fun e => (ratioOf h fuel e.1).map (· ^ e.2)).map List.prod

/-- `reduce(mul, (u.dimension ** m for u, m in l))` over a component list. -/
def oprodD (h : List UnitCell) (fuel : ℕ) (l : List (ℕ × ℤ)) : Option ℚ :=
  (l.mapM fun e => (dimOf h fuel e.1).map (· ^ e.2)).map List.prod

/-! ### Helper lemmas -/

theorem getElem?_append_some {α : Type} {l t : List α} {n : ℕ} {x : α}
    (hx : l[n]? = some x) : (l ++ t)[n]? = some x := by
  have hn : n < l.length := by
    by_contra hge
    rw [List.getElem?_eq_none (Nat.le_of_not_lt hge)] at hx
    exact Option.noConfusion hx
  rw [List.getElem?_append_left hn]
  exact hx

/-! ### Scenario states used by concrete theorems -/

/-- A fresh unit system holding one primary unit, `metre` (dimension `2`),
at heap index 0. -/
def stMetre : St := (primaryNew St.empty (some "metre") 2).1

/-- `stMetre` after one call `DerivedUnit(metre, 1000)`; the new derived unit
sits at heap index 1. -/
def stKm : St := (derivedNew stMetre (.inl 0) 1000 none).1

/-- `stKm` after a second, identical call `DerivedUnit(metre, 1000)`; the
lookup key `(id(metre), 1000)` misses the stored key `(metre, 1000)`, so a
second object is allocated at heap index 2. -/
def stKm2 : St := (derivedNew stKm (.inl 0) 1000 none).1

/-- C1: two `DerivedUnit` constructions with equal keys — the same primary
unit (`metre`, heap index 0) and the same ratio 1000 — return *distinct*
objects (heap indices 1 and 2) holding identical field data, because
`DerivedUnit.__new__` probes `__derived_units__` with `(id(primary_unit),
ratio)` but registers under `(primary_unit, ratio)`, which never compare
equal.  This falsifies the claimed interning invariant on the code as
written. -/
theorem derivedNew_equal_keys_give_distinct_objects :
    (derivedNew stMetre (.inl 0) 1000 none).2 = 1 ∧
    (derivedNew stKm (.inl 0) 1000 none).2 = 2 ∧
    stKm2.heap[1]? = some (.derived none 0 1000) ∧
    stKm2.heap[2]? = some (.derived none 0 1000) ∧
    (1 : ℕ) ≠ 2 := by
  decide

/-- C2: constructing `OffsetDerivedUnit(kilometre, ratio=1, offset=273.15)`
from the derived unit `kilometre = DerivedUnit(metre, 1000)` stores
`primary_unit = metre` (the flattening half holds) but stores `ratio = 1`,
not the claimed product `1 * 1000`: the source reassigns `primary_unit`
before executing `ratio *= primary_unit.ratio`, so it multiplies by the
primary's ratio (always 1) instead of the derived unit's. -/
theorem offsetNew_ratio_not_folded :
    (∃ s', offsetNew stKm 1 1 5 none = .ok (s', 2) ∧
      s'.heap[2]? = some (.offsetDerived none 0 1 5)) ∧
    (1 : ℚ) ≠ 1 * 1000 := by
  constructor
  · have h1 : ratioOf stKm.heap stKm.heap.length 0 = some 1 := by decide
    have h2 : stKm.heap[1]? = some (.derived none 0 1000) := by decide
    refine ⟨⟨stKm.heap ++ [UnitCell.offsetDerived none 0 (1 * 1) 5], stKm.primary_units,
      dSet stKm.derived_units [DAtom.idA 0, DAtom.qA (1 * 1), DAtom.qA 5] stKm.heap.length,
      stKm.complex_units, stKm.factors⟩, rfl, ?_⟩
    show (stKm.heap ++ [UnitCell.offsetDerived none 0 (1 * 1) 5])[2]? =
      some (UnitCell.offsetDerived none 0 1 5)
    norm_num
    decide
  · norm_num

/-- C3 (counterexample): the two structurally identical but distinct
`DerivedUnit` objects of `stKm2` (heap indices 1 and 2) satisfy `u == w`
(dataclass-generated structural equality) and have equal generated hashes,
while not being the same object — so `==` does not "hold exactly when u and
w are the same object" and the hash is not determined by identity. -/
theorem unit_eq_is_not_identity :
    structEq stKm2.heap 5 1 2 = some true ∧
    (1 : ℕ) ≠ 2 ∧
    hashKey stKm2.heap 6 1 = hashKey stKm2.heap 6 2 := by
  exact ⟨by decide, by decide, rfl⟩

/-- C3 (amended): on the concrete variants, `==` and `hash` are the
dataclass-generated structural field comparisons, not object identity (only
the abstract base `Unit` keeps `__hash__ = id`): two `DerivedUnit` objects
over the same primary unit with equal ratios and equal (stored-or-derived)
names compare equal and hash equal whether or not they are the same object. -/
theorem derived_units_structurally_equal (h : List UnitCell) (f : ℕ)
    (a b p : ℕ) (nm np : Option String) (r dp : ℚ)
    (ha : h[a]? = some (.derived nm p r))
    (hb : h[b]? = some (.derived nm p r))
    (hp : h[p]? = some (.primary np dp)) :
    structEq h (f + 3) a b = some true ∧
    hashKey h (f + 3) a = hashKey h (f + 3) b := by
  have hena : ∃ x, effName h (f + 2) a = some x := by
    cases nm with
    | some s => exact ⟨some s, by simp only [effName, ha]⟩
    | none =>
      exact ⟨some s!"{r}*{pyStr np}", by simp only [effName, ha, hp, Option.map_some']⟩
  obtain ⟨x, hxa⟩ := hena
  have hxb : effName h (f + 2) b = some x := by
    have hen : effName h (f + 2) a = effName h (f + 2) b := by
      simp only [effName, ha, hb]
    rw [← hen]; exact hxa
  have hdaa : dimOf h (f + 2) a = some dp := by
    simp only [dimOf, ha, hp]
  have hdbb : dimOf h (f + 2) b = some dp := by
    simp only [dimOf, hb, hp]
  by_cases hab : a = b
  · subst hab
    exact ⟨by simp [structEq], rfl⟩
  · constructor
    · simp only [structEq, if_neg hab, ha, hb, hxa, hxb, hdaa, hdbb]
      simp
    · simp only [hashKey, ha, hb, hxa, hxb, hdaa, hdbb]

/-- C3 witness: the general structural-equality statement instantiated at the
two interning-bug twins of `stKm2`. -/
theorem derived_units_structurally_equal_witness :
    structEq stKm2.heap 3 1 2 = some true ∧
    hashKey stKm2.heap 3 1 = hashKey stKm2.heap 3 2 :=
  derived_units_structurally_equal stKm2.heap 0 1 2 0 none (some "metre") 1000 2
    (by decide) (by decide) (by decide)

/-- C4: `u.convert(v, u)` hits the `to is self` short-circuit and returns the
value unchanged (and untouched: no arithmetic, no state change), for every
unit object `u`, every value and every fuel. -/
theorem convert_identity_short_circuit (fuel : ℕ) (s : St) (u : ℕ) (v : ℚ) :
    convert fuel s u v u = .ok (v, s) := by
  cases fuel <;> simp [convert]

/-- C5: for an `OffsetDerivedUnit` `c` over primary `p` with ratio `r ≠ 0` and
offset `o`, converting a value from `p` to `c` computes `v / r - o`
(`PrimaryUnit._do_convert`), and converting that back from `c` to `p` computes
`(x + o) * r` (`OffsetDerivedUnit._do_convert`), recovering `v` exactly. -/
theorem offset_primary_round_trip (h : List UnitCell) (f : ℕ) (p c : ℕ)
    (np nc : Option String) (dp r o v : ℚ)
    (hp : h[p]? = some (.primary np dp))
    (hc : h[c]? = some (.offsetDerived nc p r o))
    (hr : r ≠ 0) :
    doConvert h (f + 1) p v c = .ok (v / r - o) ∧
    doConvert h (f + 1) c (v / r - o) p = .ok v := by
  constructor
  · simp [doConvert, hp, primaryDoConvert, hc]
  · simp [doConvert, hc]
    exact div_mul_cancel₀ v hr

/-- Scenario heap for the spec's temperature example: `kelvin` primary
(dimension 3) at index 0 and `celsius = OffsetDerivedUnit(kelvin, ratio 1,
offset 273.15)` at index 1. -/
def hCel : List UnitCell :=
  [.primary (some "kelvin") 3, .offsetDerived (some "celsius") 0 1 (5463/20)]

/-- C5 witness: with ratio 1 and offset 273.15, converting `273.15` from
`kelvin` to `celsius` yields `273.15/1 - 273.15 = 0`, and converting that `0`
back yields `273.15` — the spec's `celsius`/`kelvin` example. -/
theorem offset_primary_round_trip_witness :
    doConvert hCel 1 0 (5463/20) 1 = .ok ((5463/20 : ℚ) / 1 - 5463/20) ∧
    doConvert hCel 1 1 ((5463/20 : ℚ) / 1 - 5463/20) 0 = .ok (5463/20) ∧
    ((5463/20 : ℚ) / 1 - 5463/20) = 0 := by
  have h := offset_primary_round_trip hCel 0 0 1 (some "kelvin") (some "celsius")
    3 1 (5463/20) (5463/20) rfl rfl one_ne_zero
  exact ⟨h.1, h.2, by norm_num⟩

/-- If every component's `_is_multiplicative` reads `True`, the `mapM` over
the component tuple succeeds with all-`true` flags. -/
theorem mapM_isMult_all_true (h : List UnitCell) (cs : List (ℕ × ℤ))
    (hall : ∀ e ∈ cs, isMult h e.1 = some true) :
    (cs.mapM fun e => isMult h e.1) = some (cs.map fun _ => true) := by
  induction cs with
  | nil => rfl
  | cons e rest ih =>
    rw [List.mapM_cons, hall e (by simp), ih fun x hx => hall x (by simp [hx])]
    rfl

/-- If some component's `_is_multiplicative` reads `False`, the collected
flags fail the `all` check. -/
theorem mapM_isMult_mem_false (h : List UnitCell) (cs : List (ℕ × ℤ))
    (bs : List Bool) (e : ℕ × ℤ)
    (hm : (cs.mapM fun e => isMult h e.1) = some bs)
    (he : e ∈ cs) (hf : isMult h e.1 = some false) :
    bs.all id = false := by
  induction cs generalizing bs with
  | nil => cases he
  | cons x rest ih =>
    rw [List.mapM_cons] at hm
    cases hx : isMult h x.1 with
    | none => rw [hx] at hm; cases hm
    | some b =>
      rw [hx] at hm
      cases hrest : (rest.mapM fun e => isMult h e.1) with
      | none => rw [hrest] at hm; cases hm
      | some bs' =>
        rw [hrest] at hm
        cases hm
        rcases List.mem_cons.mp he with rfl | hmem
        · rw [hx] at hf
          cases hf
          simp
        · simp [ih bs' hrest hmem]

/-- C8: on a fresh interning key, `ComplexUnit.__new__`'s
`assert all(u._is_multiplicative ...)` rejects any component tuple containing
an `OffsetDerivedUnit` (whose flag is `False`), while a tuple whose components
are all multiplicative — in particular one containing the offset unit's
`DiffDerivedUnit`, whose flag is re-overridden to `True` — is accepted and
interned. -/
theorem complexNew_rejects_offset_components (s : St) (cs : List (ℕ × ℤ))
    (sc : Option ℚ) (nm : Option String)
    (hmiss : cGet s.complex_units (cs, sc) = none) :
    ((∃ e ∈ cs, ∃ n2 pu r o, s.heap[e.1]? = some (.offsetDerived n2 pu r o)) →
      (∃ bs, (cs.mapM fun e => isMult s.heap e.1) = some bs) →
      complexNew s cs sc nm = .error .assertionError) ∧
    ((∀ e ∈ cs, isMult s.heap e.1 = some true) →
      complexNew s cs sc nm =
        .ok ({ s with
                heap := s.heap ++ [.complex nm cs sc]
                complex_units := cSet s.complex_units (cs, sc) s.heap.length },
            s.heap.length)) := by
  constructor
  · rintro ⟨e, he, n2, pu, r, o, hcell⟩ ⟨bs, hbs⟩
    have hf : isMult s.heap e.1 = some false := by simp [isMult, hcell]
    have hfalse := mapM_isMult_mem_false s.heap cs bs e hbs he hf
    simp only [complexNew, hmiss, hbs, hfalse]
    simp
  · intro hall
    have hm := mapM_isMult_all_true s.heap cs hall
    have htrue : ((cs.map fun _ => true).all id) = true := by
      simp
    simp only [complexNew, hmiss, hm, htrue]
    simp

/-- Scenario: `kelvin` primary (dimension 3), `celsius` offset unit over it
(ratio 1, offset 5), and `celsius_diff`, its diff unit. -/
def sOff : St :=
  ⟨[.primary (some "kelvin") 3, .offsetDerived (some "celsius") 0 1 5,
    .diffDerived (some "celsius_diff") 1], [(3, 0)], [], [], []⟩

/-- C8 witness: building a `ComplexUnit` on `(celsius, 1)` raises the
assertion, building one on `(celsius_diff, 1)` succeeds. -/
theorem complexNew_rejects_offset_components_witness :
    complexNew sOff [(1, 1)] none none = .error .assertionError ∧
    complexNew sOff [(2, 1)] none none =
      .ok ({ sOff with
              heap := sOff.heap ++ [.complex none [(2, 1)] none]
              complex_units := cSet sOff.complex_units ([(2, 1)], none) 3 }, 3) := by
  constructor
  · exact (complexNew_rejects_offset_components sOff [(1, 1)] none none rfl).1
      ⟨(1, 1), by decide, some "celsius", 0, 1, 5, rfl⟩ ⟨[false], rfl⟩
  · exact (complexNew_rejects_offset_components sOff [(2, 1)] none none rfl).2
      (by decide)

/-- C10: `ComplexUnit.__pow__` on a unit with an explicit name or a scale ≠ 1
rebuilds from `(u, p * n)` pairs only: on a fresh key the result object has no
stored name (so its name is lazily re-synthesised by `_build_name`) and no
stored scale (so its scale is the default 1) — both the scale and the custom
name are dropped rather than preserved or raised to the power — even though
`_to_components` treats the same unit as an opaque atom. -/
theorem complexPow_drops_scale_and_name (s : St) (c : ℕ) (n : ℤ)
    (nm : Option String) (comps : List (ℕ × ℤ)) (sc : Option ℚ)
    (hc : s.heap[c]? = some (.complex nm comps sc))
    (hop : nm.isSome = true ∨ effScale sc ≠ 1)
    (hmiss : cGet s.complex_units ((comps.map fun e => (e.1, e.2 * n)), none) = none)
    (hall : ∀ e ∈ comps, isMult s.heap e.1 = some true) :
    (∃ s', complexPow s c n = .ok (s', s.heap.length) ∧
      s'.heap[s.heap.length]? =
        some (.complex none (comps.map fun e => (e.1, e.2 * n)) none)) ∧
    tcomp s.heap c 1 = [(c, 1)] := by
  constructor
  · have hall2 : ∀ e ∈ (comps.map fun e => (e.1, e.2 * n)), isMult s.heap e.1 = some true := by
      intro e he
      obtain ⟨x, hx, rfl⟩ := List.mem_map.mp he
      exact hall x hx
    have hm := mapM_isMult_all_true s.heap _ hall2
    have htrue : (((comps.map fun e => (e.1, e.2 * n)).map fun _ => true).all id) = true := by
      simp
    refine ⟨{ s with
        heap := s.heap ++ [.complex none (comps.map fun e => (e.1, e.2 * n)) none]
        complex_units :=
          cSet s.complex_units ((comps.map fun e => (e.1, e.2 * n)), none) s.heap.length },
      ?_, ?_⟩
    · simp only [complexPow, hc, complexNew, hmiss, hm, htrue]
      simp
    · exact List.getElem?_concat_length _ _
  · unfold tcomp
    rw [hc]
    rcases hop with hnm | hsc
    · simp [hnm]
    · simp [hsc]

/-- Scenario: `metre` primary (dimension 2) and a named, scaled composite
`acre = ComplexUnit` over `(metre, 2)` with scale 4047. -/
def sAcre : St :=
  ⟨[.primary (some "m") 2, .complex (some "acre") [(0, 2)] (some 4047)],
    [(2, 0)], [], [], []⟩

/-- C10 witness: `acre ** 3` yields a fresh complex unit with components
`(metre, 6)`, no stored name and default scale, although `_to_components`
keeps `acre` opaque. -/
theorem complexPow_drops_scale_and_name_witness :
    (∃ s', complexPow sAcre 1 3 = .ok (s', 2) ∧
      s'.heap[2]? = some (.complex none [(0, 6)] none)) ∧
    tcomp sAcre.heap 1 1 = [(1, 1)] :=
  complexPow_drops_scale_and_name sAcre 1 3 (some "acre") [(0, 2)] (some 4047)
    rfl (Or.inl rfl) rfl (by decide)

/-- C7: converting between units of different dimensions consults
`conversion_factor(to.dimension / self.dimension)`: when no factor is
registered the `ValueError` naming both units and the dimension quotient is
raised; when a factor `q` is registered, the result is the recursive
conversion of `value * q.value` from the intermediate unit `self * q.unit`
to the target. -/
theorem convert_cross_dimension (f : ℕ) (s : St) (u t : ℕ) (v du dt : ℚ)
    (hne : t ≠ u)
    (hdu : dimOf s.heap (f + 1) u = some du)
    (hdt : dimOf s.heap (f + 1) t = some dt)
    (hdiff : du ≠ dt) :
    (lookupFactor s (dt / du) = none →
      convert (f + 1) s u v t = .error (.noConversionFactor u t (dt / du))) ∧
    (∀ q, lookupFactor s (dt / du) = some q →
      convert (f + 1) s u v t =
        (unitMul s u q.unit).bind fun sm => convert f sm.1 sm.2 (v * q.value) t) := by
  constructor
  · intro hlf
    simp [convert, if_neg hne, hdu, hdt, if_neg hdiff, hlf]
  · intro q hlf
    simp [convert, if_neg hne, hdu, hdt, if_neg hdiff, hlf]

/-- Scenario: primaries `price` (dimension 2) and `mass` (dimension 3) with no
registered conversion factor. -/
def sNoF : St :=
  ⟨[.primary (some "price") 2, .primary (some "mass") 3], [(2, 0), (3, 1)],
    [], [], []⟩

/-- Scenario: `sNoF` plus a `mass/price` composite at index 2 and a registered
conversion factor `3 (mass/price)` for the quotient `3/2`. -/
def sFac : St :=
  ⟨[.primary (some "price") 2, .primary (some "mass") 3,
    .complex none [(1, 1), (0, -1)] none], [(2, 0), (3, 1)],
    [], [(([(1, 1), (0, -1)], none), 2)], [(3/2, ⟨3, 2⟩)]⟩

/-- C7 witness: without a factor, converting `price → mass` raises the
error naming both units and the quotient `3/2`; with the factor `3
(mass/price)` registered, the conversion equals multiplying by 3 and
recursing from the intermediate product unit. -/
theorem convert_cross_dimension_witness :
    convert 1 sNoF 0 10 1 = .error (.noConversionFactor 0 1 ((3 : ℚ) / 2)) ∧
    convert 1 sFac 0 10 1 =
      ((unitMul sFac 0 2).bind fun sm => convert 0 sm.1 sm.2 (10 * 3) 1) := by
  constructor
  · exact (convert_cross_dimension 0 sNoF 0 1 10 2 3 (by decide) rfl rfl
      (by norm_num)).1 rfl
  · exact (convert_cross_dimension 0 sFac 0 1 10 2 3 (by decide) rfl rfl
      (by norm_num)).2 ⟨3, 2⟩ (by simp [lookupFactor, sFac])

/-- A missing key means no table entry matches it. -/
theorem cGet_none_any_false (t : List (CKey × ℕ)) (k : CKey)
    (hmiss : cGet t k = none) : (t.any fun e => e.1 = k) = false := by
  rw [List.any_eq_false]
  intro e he
  have hfind := List.find?_eq_none.mp (Option.map_eq_none'.mp hmiss) e he
  simpa using hfind

/-- What a successful `ComplexUnit.__new__` guarantees: the heap only grows,
the returned object is a `ComplexUnit` cell carrying exactly the requested
components and scale (fresh, or an interned twin with the same key), and the
table stays well formed. -/
theorem complexNew_ok_cell (s : St) (cs : List (ℕ × ℤ)) (sc : Option ℚ)
    (nm : Option String) (s' : St) (u : ℕ)
    (hwf : complexWFb s = true)
    (hok : complexNew s cs sc nm = .ok (s', u)) :
    (∃ t2, s'.heap = s.heap ++ t2) ∧
    (∃ nm2, s'.heap[u]? = some (.complex nm2 cs sc)) ∧
    complexWFb s' = true := by
  simp only [complexNew] at hok
  cases hcg : cGet s.complex_units (cs, sc) with
  | some d =>
    simp only [hcg] at hok
    cases hok
    obtain ⟨e, hfind, he2⟩ := Option.map_eq_some'.mp hcg
    have hmem : e ∈ s.complex_units := List.mem_of_find?_eq_some hfind
    have hkey : e.1 = (cs, sc) := by
      have := List.find?_some hfind
      simpa using this
    have hwfe := (List.all_eq_true.mp hwf) e hmem
    refine ⟨⟨[], by simp⟩, ?_, hwf⟩
    cases hcell : s.heap[e.2]? with
    | none => rw [hcell] at hwfe; cases hwfe
    | some cell =>
      rw [hcell] at hwfe
      cases cell with
      | complex nm2 comps2 sc2 =>
        have h2 : comps2 = e.1.1 ∧ sc2 = e.1.2 := by simpa using hwfe
        refine ⟨nm2, ?_⟩
        rw [← he2, hcell, h2.1, h2.2, hkey]
      | primary n2 d2 => exact absurd hwfe (by simp)
      | derived n2 p2 r2 => exact absurd hwfe (by simp)
      | offsetDerived n2 p2 r2 o2 => exact absurd hwfe (by simp)
      | diffDerived n2 o2 => exact absurd hwfe (by simp)
  | none =>
    cases hmm : (cs.mapM fun e => isMult s.heap e.1) with
    | none =>
      rw [hcg] at hok
      rw [hmm] at hok
      cases hok
    | some bs =>
      simp only [hcg, hmm] at hok
      cases hall : bs.all id with
      | false => rw [hall] at hok; simp at hok
      | true =>
        rw [hall] at hok
        simp only [if_true] at hok
        cases hok
        have happ : cSet s.complex_units (cs, sc) s.heap.length =
            s.complex_units ++ [((cs, sc), s.heap.length)] := by
          unfold cSet
          rw [cGet_none_any_false s.complex_units (cs, sc) hcg]
          simp
        refine ⟨⟨[.complex nm cs sc], rfl⟩, ⟨nm, List.getElem?_concat_length _ _⟩, ?_⟩
        show complexWFb _ = true
        unfold complexWFb
        rw [List.all_eq_true]
        intro e he
        simp only [happ, List.mem_append, List.mem_singleton] at he
        rcases he with hold | rfl
        · have hwfe := (List.all_eq_true.mp hwf) e hold
          cases hcell : s.heap[e.2]? with
          | none => rw [hcell] at hwfe; cases hwfe
          | some cell =>
            rw [hcell] at hwfe
            have : (s.heap ++ [UnitCell.complex nm cs sc])[e.2]? = some cell :=
              getElem?_append_some hcell
            simp only [this]
            exact hwfe
        · simp only [List.getElem?_concat_length]
          simp

/-- C6: `DerivedUnit.__pow__` discards the requested power: for every
`DerivedUnit` `d` and every exponent `n`, `d ** n` succeeds and returns a
`ComplexUnit` whose single component is `(d, 2)`. -/
theorem derivedPow_exponent_always_two (s : St) (d : ℕ) (n : ℤ)
    (nm : Option String) (p : ℕ) (r : ℚ)
    (hwf : complexWFb s = true)
    (hd : s.heap[d]? = some (.derived nm p r)) :
    ∃ s' u, derivedPow s d n = .ok (s', u) ∧
      ∃ nm2, s'.heap[u]? = some (.complex nm2 [(d, 2)] none) := by
  have hmult : isMult s.heap d = some true := by simp [isMult, hd]
  have hok : ∃ s' u, derivedPow s d n = .ok (s', u) := by
    unfold derivedPow
    cases hcg : cGet s.complex_units ([(d, 2)], none) with
    | some d2 =>
      refine ⟨s, d2, ?_⟩
      simp [complexNew, hcg]
    | none =>
      have hm : (([(d, 2)] : List (ℕ × ℤ)).mapM fun e => isMult s.heap e.1) =
          some [true] := by
        rw [List.mapM_cons, hmult]
        rfl
      refine ⟨{ s with
          heap := s.heap ++ [.complex none [(d, 2)] none]
          complex_units := cSet s.complex_units ([(d, 2)], none) s.heap.length },
        s.heap.length, ?_⟩
      simp only [complexNew, hcg, hm]
      simp
  obtain ⟨s', u, hok⟩ := hok
  exact ⟨s', u, hok, (complexNew_ok_cell s [(d, 2)] none none s' u hwf hok).2.1⟩

/-- C6 witness: `kilometre ** 7` in `stKm` yields the complex unit with the
single component `(kilometre, 2)`. -/
theorem derivedPow_exponent_always_two_witness :
    ∃ s' u, derivedPow stKm 1 7 = .ok (s', u) ∧
      ∃ nm2, s'.heap[u]? = some (.complex nm2 [(1, 2)] none) :=
  derivedPow_exponent_always_two stKm 1 7 none 0 1000 (by decide) (by decide)

/-! ### Products over component lists (for the `(a * b) / b` algebra) -/

/-- `reduce(mul, (V(u) ** m for u, m in l))` with initial value 1, over an
arbitrary per-unit attribute `V` (ratio or dimension). -/
def oprodV (V : ℕ → Option ℚ) : List (ℕ × ℤ) → Option ℚ
  | [] => some 1
  | e :: rest => do
    let r ← V e.1
    let x ← oprodV V rest
    pure (r ^ e.2 * x)

/-- The `mapM`-and-multiply form used inside `ratioOf`/`dimOf` agrees with
`oprodV`. -/
theorem mapM_prod_eq_oprodV (V : ℕ → Option ℚ) (l : List (ℕ × ℤ)) :
    (l.mapM fun e => (V e.1).map (· ^ e.2)).map List.prod = oprodV V l := by
  induction l with
  | nil => rfl
  | cons e rest ih =>
    rw [List.mapM_cons]
    cases hv : V e.1 with
    | none => simp [oprodV, hv]
    | some r =>
      cases hr : rest.mapM fun e => (V e.1).map (· ^ e.2) with
      | none =>
        have : oprodV V rest = none := by rw [← ih, hr]; rfl
        simp [oprodV, hv, hr, this]
      | some rs =>
        have : oprodV V rest = some rs.prod := by rw [← ih, hr]; rfl
        simp [oprodV, hv, hr, this]

/-- Transfer an `oprodV` value along a pointwise refinement of `V`. -/
theorem oprodV_transfer (V W : ℕ → Option ℚ) (l : List (ℕ × ℤ)) (x : ℚ)
    (hVW : ∀ e ∈ l, ∀ r, V e.1 = some r → W e.1 = some r)
    (hl : oprodV V l = some x) : oprodV W l = some x := by
  induction l generalizing x with
  | nil => exact hl
  | cons e rest ih =>
    unfold oprodV at hl ⊢
    cases hv : V e.1 with
    | none => rw [hv] at hl; cases hl
    | some r =>
      rw [hv] at hl
      cases hrest : oprodV V rest with
      | none => rw [hrest] at hl; cases hl
      | some y =>
        rw [hrest] at hl
        rw [hVW e (by simp) r hv,
          ih y (fun e2 he2 => hVW e2 (List.mem_cons_of_mem _ he2)) hrest]
        exact hl

/-- Entries whose key does not match are unchanged by the update map. -/
theorem map_update_eq_self (l : List (ℕ × ℤ)) (u : ℕ) (g : ℕ × ℤ → ℕ × ℤ)
    (hu : u ∉ l.map Prod.fst) :
    (l.map fun e => if e.1 = u then g e else e) = l := by
  induction l with
  | nil => rfl
  | cons e rest ih =>
    simp only [List.map_cons, List.mem_cons, List.map] at hu ⊢
    have he : e.1 ≠ u := fun h => hu (by simp [h])
    rw [if_neg he, ih (fun h => hu (by simp [h]))]

/-- `addComp` on a list whose head key differs just recurses. -/
theorem addComp_cons_of_ne (l : List (ℕ × ℤ)) (e : ℕ × ℤ) (u : ℕ) (p : ℤ)
    (hne : e.1 ≠ u) : addComp (e :: l) u p = e :: addComp l u p := by
  unfold addComp
  cases ha : l.any fun e2 => e2.1 = u with
  | true =>
    have : ((e :: l).any fun e2 => e2.1 = u) = true := by
      simp only [List.any_cons, ha, Bool.or_true]
    rw [this]
    simp [hne]
  | false =>
    have : ((e :: l).any fun e2 => e2.1 = u) = false := by
      simp only [List.any_cons, ha, Bool.or_false]
      simpa using hne
    rw [this]
    simp

/-- `addComp` keeps the key multiset: membership of keys only grows by `u`. -/
theorem addComp_keys_sub (l : List (ℕ × ℤ)) (u : ℕ) (p : ℤ) (k : ℕ)
    (hk : k ∈ (addComp l u p).map Prod.fst) :
    k ∈ l.map Prod.fst ∨ k = u := by
  unfold addComp at hk
  by_cases ha : (l.any fun e => e.1 = u) = true
  · rw [if_pos ha] at hk
    simp only [List.map_map, List.mem_map, Function.comp] at hk
    obtain ⟨e, he, hke⟩ := hk
    by_cases heu : e.1 = u
    · right
      rw [if_pos heu] at hke
      rw [← hke, heu]
    · left
      rw [if_neg heu] at hke
      exact hke ▸ List.mem_map_of_mem Prod.fst he
  · rw [if_neg ha] at hk
    simp only [List.map_append, List.mem_append] at hk
    rcases hk with h | h
    · exact Or.inl h
    · simp at h; exact Or.inr h

/-- `addComp` preserves key distinctness. -/
theorem addComp_nodup (l : List (ℕ × ℤ)) (u : ℕ) (p : ℤ)
    (hl : (l.map Prod.fst).Nodup) : ((addComp l u p).map Prod.fst).Nodup := by
  unfold addComp
  by_cases ha : (l.any fun e => e.1 = u) = true
  · rw [if_pos ha]
    have : ((l.map fun e => if e.1 = u then (e.1, e.2 + p) else e).map Prod.fst) =
        l.map Prod.fst := by
      rw [List.map_map]
      apply List.map_congr_left
      intro e _
      by_cases heu : e.1 = u <;> simp [heu]
    rw [this]
    exact hl
  · rw [if_neg ha]
    rw [List.map_append]
    simp only [List.map_cons, List.map_nil]
    rw [List.nodup_append]
    refine ⟨hl, List.nodup_singleton u, ?_⟩
    intro k hk hku
    simp only [List.mem_singleton] at hku
    subst hku
    rw [List.any_eq_true] at ha
    simp only [List.mem_map] at hk
    obtain ⟨e, he, hke⟩ := hk
    exact ha ⟨e, he, by simpa using hke⟩

/-- `components[u] += p` multiplies the value product by `V(u) ^ p` as long as
keys are distinct and `V(u)` is nonzero. -/
theorem oprodV_addComp (V : ℕ → Option ℚ) (l : List (ℕ × ℤ)) (u : ℕ) (p : ℤ)
    (x ru : ℚ)
    (hnodup : (l.map Prod.fst).Nodup)
    (hl : oprodV V l = some x)
    (hu : V u = some ru) (hru : ru ≠ 0) :
    oprodV V (addComp l u p) = some (x * ru ^ p) := by
  induction l generalizing x with
  | nil =>
    cases hl
    simp [addComp, oprodV, hu]
  | cons e rest ih =>
    unfold oprodV at hl
    cases hv : V e.1 with
    | none => rw [hv] at hl; cases hl
    | some r =>
      rw [hv] at hl
      cases hrest : oprodV V rest with
      | none => rw [hrest] at hl; cases hl
      | some y =>
        rw [hrest] at hl
        simp only [Option.bind_eq_bind, Option.some_bind, Option.pure_def] at hl
        cases hl
        simp only [List.map_cons, List.nodup_cons] at hnodup
        by_cases heu : e.1 = u
        · have hany : ((e :: rest).any fun e2 => e2.1 = u) = true := by
            simp [List.any_cons, heu]
          unfold addComp
          rw [if_pos hany]
          simp only [List.map_cons, if_pos heu]
          rw [map_update_eq_self rest u _ (heu ▸ hnodup.1)]
          rw [heu] at hv
          rw [hu] at hv
          cases hv
          unfold oprodV
          simp only [heu]
          rw [hu, hrest]
          simp only [Option.bind_eq_bind, Option.some_bind, Option.pure_def]
          congr 1
          rw [zpow_add₀ hru]
          ring
        · rw [addComp_cons_of_ne rest e u p heu]
          unfold oprodV
          rw [hv, ih y hnodup.2 hrest]
          simp only [Option.bind_eq_bind, Option.some_bind, Option.pure_def]
          congr 1
          ring

/-- Folding a second component list into the dict multiplies the value
products, provided the dict keys are distinct and the added entries' values
are nonzero. -/
theorem oprodV_mergeComps (V : ℕ → Option ℚ) (adds : List (ℕ × ℤ)) :
    ∀ (init : List (ℕ × ℤ)) (x y : ℚ),
    (init.map Prod.fst).Nodup →
    oprodV V init = some x →
    oprodV V adds = some y →
    (∀ e ∈ adds, ∃ r, V e.1 = some r ∧ r ≠ 0) →
    oprodV V (mergeComps init adds) = some (x * y) := by
  induction adds with
  | nil =>
    intro init x y hnodup hinit hadds _
    cases hadds
    simpa [mergeComps] using hinit
  | cons e rest ih =>
    intro init x y hnodup hinit hadds hnz
    obtain ⟨re, hre, hre0⟩ := hnz e (by simp)
    unfold oprodV at hadds
    rw [hre] at hadds
    cases hrest : oprodV V rest with
    | none => rw [hrest] at hadds; cases hadds
    | some yr =>
      rw [hrest] at hadds
      simp only [Option.bind_eq_bind, Option.some_bind, Option.pure_def] at hadds
      cases hadds
      have hstep := oprodV_addComp V init e.1 e.2 x re hnodup hinit hre hre0
      have hnodup2 := addComp_nodup init e.1 e.2 hnodup
      have := ih (addComp init e.1 e.2) (x * re ^ e.2) yr hnodup2 hstep hrest
        fun e2 he2 => hnz e2 (List.mem_cons_of_mem _ he2)
      show oprodV V (mergeComps (addComp init e.1 e.2) rest) = _
      rw [this]
      congr 1
      ring

/-- Scaling every exponent by `p` raises the value product to the power `p`. -/
theorem oprodV_map_powmul (V : ℕ → Option ℚ) (l : List (ℕ × ℤ)) (p : ℤ)
    (x : ℚ) (hl : oprodV V l = some x) :
    oprodV V (l.map fun e => (e.1, e.2 * p)) = some (x ^ p) := by
  induction l generalizing x with
  | nil =>
    cases hl
    simp [oprodV, one_zpow]
  | cons e rest ih =>
    unfold oprodV at hl
    cases hv : V e.1 with
    | none => rw [hv] at hl; cases hl
    | some r =>
      rw [hv] at hl
      cases hrest : oprodV V rest with
      | none => rw [hrest] at hl; cases hl
      | some y =>
        rw [hrest] at hl
        simp only [Option.bind_eq_bind, Option.some_bind, Option.pure_def] at hl
        cases hl
        rw [List.map_cons]
        unfold oprodV
        simp only []
        rw [hv, ih y hrest]
        simp only [Option.bind_eq_bind, Option.some_bind, Option.pure_def]
        congr 1
        rw [mul_zpow, zpow_mul]

/-- With distinct keys, building the dict from the pairs keeps them as is. -/
theorem dictInit_eq_self (l : List (ℕ × ℤ)) (hl : (l.map Prod.fst).Nodup) :
    dictInit l = l := by
  suffices hgen : ∀ acc : List (ℕ × ℤ),
      (∀ k ∈ acc.map Prod.fst, k ∉ l.map Prod.fst) →
      l.foldl (fun acc e => setComp acc e.1 e.2) acc = acc ++ l by
    simpa using hgen [] (by simp)
  induction l with
  | nil => intro acc _; simp
  | cons e rest ih =>
    intro acc hdisj
    simp only [List.map_cons, List.nodup_cons] at hl
    have hnotin : (acc.any fun e2 => e2.1 = e.1) = false := by
      rw [List.any_eq_false]
      intro e2 he2
      have := hdisj e2.1 (List.mem_map_of_mem _ he2)
      simp only [List.map_cons, List.mem_cons] at this
      simpa using fun h => this (Or.inl h)
    rw [List.foldl_cons]
    have hset : setComp acc e.1 e.2 = acc ++ [(e.1, e.2)] := by
      unfold setComp
      rw [hnotin]
      simp
    rw [hset]
    rw [ih hl.2 (acc ++ [(e.1, e.2)]) ?_]
    · simp
    · intro k hk
      simp only [List.map_append, List.mem_append] at hk
      rcases hk with h | h
      · intro hmem
        exact hdisj k h (by simp [hmem])
      · simp only [List.map_cons, List.map_nil, List.mem_singleton] at h
        subst h
        exact hl.1

/-- Keys of a merged dict come from one of the two inputs. -/
theorem mergeComps_keys_sub (adds : List (ℕ × ℤ)) :
    ∀ (init : List (ℕ × ℤ)) (k : ℕ),
    k ∈ (mergeComps init adds).map Prod.fst →
    k ∈ init.map Prod.fst ∨ k ∈ adds.map Prod.fst := by
  induction adds with
  | nil => intro init k hk; exact Or.inl hk
  | cons e rest ih =>
    intro init k hk
    rcases ih (addComp init e.1 e.2) k hk with h | h
    · rcases addComp_keys_sub init e.1 e.2 k h with h2 | h2
      · exact Or.inl h2
      · right; simp [h2]
    · right; simp [h]

/-- Keys of the initial dict come from the seeding pairs. -/
theorem dictInit_keys_sub (l : List (ℕ × ℤ)) (k : ℕ)
    (hk : k ∈ (dictInit l).map Prod.fst) : k ∈ l.map Prod.fst := by
  suffices hgen : ∀ acc : List (ℕ × ℤ), ∀ k,
      k ∈ (l.foldl (fun acc e => setComp acc e.1 e.2) acc).map Prod.fst →
      k ∈ acc.map Prod.fst ∨ k ∈ l.map Prod.fst by
    rcases hgen [] k hk with h | h
    · simp at h
    · exact h
  clear hk
  induction l with
  | nil => intro acc k2 h; exact Or.inl h
  | cons e rest ih =>
    intro acc k2 h
    rw [List.foldl_cons] at h
    rcases ih (setComp acc e.1 e.2) k2 h with h2 | h2
    · unfold setComp at h2
      by_cases ha : (acc.any fun e2 => e2.1 = e.1) = true
      · rw [if_pos ha] at h2
        simp only [List.map_map, List.mem_map, Function.comp] at h2
        obtain ⟨e2, he2, hke⟩ := h2
        by_cases heu : e2.1 = e.1
        · right
          rw [if_pos heu] at hke
          simp only at hke
          rw [← hke]
          simp only [List.map_cons, List.mem_cons]
          exact Or.inl heu
        · left
          rw [if_neg heu] at hke
          exact hke ▸ List.mem_map_of_mem Prod.fst he2
      · rw [if_neg ha] at h2
        simp only [List.map_append, List.mem_append] at h2
        rcases h2 with h3 | h3
        · exact Or.inl h3
        · right
          simp only [List.map_cons, List.map_nil, List.mem_singleton] at h3
          simp [h3]
    · right
      simp [h2]

/-- The key list of `_to_components` does not depend on the power. -/
theorem tcomp_keys_eq (h : List UnitCell) (u : ℕ) (p : ℤ) :
    (tcomp h u p).map Prod.fst = (tcomp h u 1).map Prod.fst := by
  unfold tcomp
  cases hc : h[u]? with
  | none => rfl
  | some cell =>
    cases cell with
    | complex nm comps sc =>
      by_cases hop : nm.isSome = true ∨ effScale sc ≠ 1
      · simp [hop]
      · by_cases hp : p = 1
        · simp [hop, hp]
        · simp [hop, hp, List.map_map, Function.comp]
    | primary n d => rfl
    | derived n p2 r => rfl
    | offsetDerived n p2 r o => rfl
    | diffDerived n ou => rfl

/-- Successful `mapM` values transfer along pointwise refinements. -/
theorem mapM_congr_some {α β : Type} (F G : α → Option β) (l : List α)
    (hFG : ∀ a ∈ l, ∀ b, F a = some b → G a = some b) :
    ∀ bs, l.mapM F = some bs → l.mapM G = some bs := by
  induction l with
  | nil => intro bs hl; exact hl
  | cons a rest ih =>
    intro bs hl
    rw [List.mapM_cons] at hl ⊢
    cases hf : F a with
    | none => rw [hf] at hl; cases hl
    | some b =>
      rw [hf] at hl
      cases hrest : rest.mapM F with
      | none => rw [hrest] at hl; cases hl
      | some bs2 =>
        rw [hrest] at hl
        rw [hFG a (by simp) b hf,
          ih (fun a2 ha2 => hFG a2 (List.mem_cons_of_mem _ ha2)) bs2 hrest]
        exact hl

/-- More fuel never changes a successful `ratio` evaluation. -/
theorem ratioOf_mono (h : List UnitCell) :
    ∀ f g u r, f ≤ g → ratioOf h f u = some r → ratioOf h g u = some r := by
  intro f
  induction f with
  | zero => intro g u r _ hf; simp [ratioOf] at hf
  | succ f ih =>
    intro g u r hle hf
    obtain ⟨g', rfl⟩ : ∃ g', g = g' + 1 := ⟨g - 1, by omega⟩
    have hle' : f ≤ g' := by omega
    rw [ratioOf] at hf ⊢
    cases hc : h[u]? with
    | none => rw [hc] at hf; exact hf
    | some cell =>
      rw [hc] at hf
      cases cell with
      | primary n d => exact hf
      | derived n p r2 => exact hf
      | offsetDerived n p r2 o => exact hf
      | diffDerived n ou => exact ih g' ou r hle' hf
      | complex n comps sc =>
        have hf2 : (comps.mapM fun e => (ratioOf h f e.1).map (· ^ e.2)).map
            (fun rs => rs.prod * effScale sc) = some r := hf
        show (comps.mapM fun e => (ratioOf h g' e.1).map (· ^ e.2)).map
            (fun rs => rs.prod * effScale sc) = some r
        cases hm : comps.mapM fun e => (ratioOf h f e.1).map (· ^ e.2) with
        | none => rw [hm] at hf2; cases hf2
        | some rs =>
          rw [hm] at hf2
          have hm2 := mapM_congr_some _
            (fun e => (ratioOf h g' e.1).map (· ^ e.2)) comps ?_ rs hm
          · rw [hm2]; exact hf2
          · intro e _ b hb
            obtain ⟨r2, hr2, hpow⟩ := Option.map_eq_some'.mp hb
            beta_reduce
            rw [ih g' e.1 r2 hle' hr2]
            simpa using hpow

/-- More fuel never changes a successful `dimension` evaluation. -/
theorem dimOf_mono (h : List UnitCell) :
    ∀ f g u d, f ≤ g → dimOf h f u = some d → dimOf h g u = some d := by
  intro f
  induction f with
  | zero => intro g u d _ hf; simp [dimOf] at hf
  | succ f ih =>
    intro g u d hle hf
    obtain ⟨g', rfl⟩ : ∃ g', g = g' + 1 := ⟨g - 1, by omega⟩
    have hle' : f ≤ g' := by omega
    rw [dimOf] at hf ⊢
    cases hc : h[u]? with
    | none => rw [hc] at hf; exact hf
    | some cell =>
      rw [hc] at hf
      cases cell with
      | primary n d2 => exact hf
      | derived n p r2 => exact ih g' p d hle' hf
      | offsetDerived n p r2 o => exact ih g' p d hle' hf
      | diffDerived n ou => exact ih g' ou d hle' hf
      | complex n comps sc =>
        have hf2 : (comps.mapM fun e => (dimOf h f e.1).map (· ^ e.2)).map
            List.prod = some d := hf
        show (comps.mapM fun e => (dimOf h g' e.1).map (· ^ e.2)).map
            List.prod = some d
        cases hm : comps.mapM fun e => (dimOf h f e.1).map (· ^ e.2) with
        | none => rw [hm] at hf2; cases hf2
        | some ds =>
          rw [hm] at hf2
          have hm2 := mapM_congr_some _
            (fun e => (dimOf h g' e.1).map (· ^ e.2)) comps ?_ ds hm
          · rw [hm2]; exact hf2
          · intro e _ b hb
            obtain ⟨d2, hd2, hpow⟩ := Option.map_eq_some'.mp hb
            beta_reduce
            rw [ih g' e.1 d2 hle' hd2]
            simpa using hpow

/-- Appending fresh cells never changes a successful `ratio` evaluation. -/
theorem ratioOf_append (h t : List UnitCell) :
    ∀ f u r, ratioOf h f u = some r → ratioOf (h ++ t) f u = some r := by
  intro f
  induction f with
  | zero => intro u r hf; simp [ratioOf] at hf
  | succ f ih =>
    intro u r hf
    rw [ratioOf] at hf ⊢
    cases hc : h[u]? with
    | none => rw [hc] at hf; cases hf
    | some cell =>
      rw [hc] at hf
      rw [getElem?_append_some hc]
      cases cell with
      | primary n d => exact hf
      | derived n p r2 => exact hf
      | offsetDerived n p r2 o => exact hf
      | diffDerived n ou => exact ih ou r hf
      | complex n comps sc =>
        have hf2 : (comps.mapM fun e => (ratioOf h f e.1).map (· ^ e.2)).map
            (fun rs => rs.prod * effScale sc) = some r := hf
        show (comps.mapM fun e => (ratioOf (h ++ t) f e.1).map (· ^ e.2)).map
            (fun rs => rs.prod * effScale sc) = some r
        cases hm : comps.mapM fun e => (ratioOf h f e.1).map (· ^ e.2) with
        | none => rw [hm] at hf2; cases hf2
        | some rs =>
          rw [hm] at hf2
          have hm2 := mapM_congr_some _
            (fun e => (ratioOf (h ++ t) f e.1).map (· ^ e.2)) comps ?_ rs hm
          · rw [hm2]; exact hf2
          · intro e _ b hb
            obtain ⟨r2, hr2, hpow⟩ := Option.map_eq_some'.mp hb
            beta_reduce
            rw [ih e.1 r2 hr2]
            simpa using hpow

/-- Appending fresh cells never changes a successful `dimension` evaluation. -/
theorem dimOf_append (h t : List UnitCell) :
    ∀ f u d, dimOf h f u = some d → dimOf (h ++ t) f u = some d := by
  intro f
  induction f with
  | zero => intro u d hf; simp [dimOf] at hf
  | succ f ih =>
    intro u d hf
    rw [dimOf] at hf ⊢
    cases hc : h[u]? with
    | none => rw [hc] at hf; cases hf
    | some cell =>
      rw [hc] at hf
      rw [getElem?_append_some hc]
      cases cell with
      | primary n d2 => exact hf
      | derived n p r2 => exact ih p d hf
      | offsetDerived n p r2 o => exact ih p d hf
      | diffDerived n ou => exact ih ou d hf
      | complex n comps sc =>
        have hf2 : (comps.mapM fun e => (dimOf h f e.1).map (· ^ e.2)).map
            List.prod = some d := hf
        show (comps.mapM fun e => (dimOf (h ++ t) f e.1).map (· ^ e.2)).map
            List.prod = some d
        cases hm : comps.mapM fun e => (dimOf h f e.1).map (· ^ e.2) with
        | none => rw [hm] at hf2; cases hf2
        | some ds =>
          rw [hm] at hf2
          have hm2 := mapM_congr_some _
            (fun e => (dimOf (h ++ t) f e.1).map (· ^ e.2)) comps ?_ ds hm
          · rw [hm2]; exact hf2
          · intro e _ b hb
            obtain ⟨d2, hd2, hpow⟩ := Option.map_eq_some'.mp hb
            beta_reduce
            rw [ih e.1 d2 hd2]
            simpa using hpow

/-- `_to_components` only reads the unit's own cell, so appending fresh cells
changes nothing. -/
theorem tcomp_append (h t : List UnitCell) (u : ℕ) (p : ℤ) (c : UnitCell)
    (hc : h[u]? = some c) : tcomp (h ++ t) u p = tcomp h u p := by
  unfold tcomp
  rw [hc, getElem?_append_some hc]

/-- `ratio` of a `ComplexUnit` cell, in `oprodV` form. -/
theorem ratioOf_complex_eq (h : List UnitCell) (f u : ℕ) (nm : Option String)
    (comps : List (ℕ × ℤ)) (sc : Option ℚ)
    (hc : h[u]? = some (.complex nm comps sc)) :
    ratioOf h (f + 1) u =
      (oprodV (ratioOf h f) comps).map (· * effScale sc) := by
  rw [← mapM_prod_eq_oprodV, Option.map_map]
  rw [ratioOf, hc]
  rfl

/-- `dimension` of a `ComplexUnit` cell, in `oprodV` form. -/
theorem dimOf_complex_eq (h : List UnitCell) (f u : ℕ) (nm : Option String)
    (comps : List (ℕ × ℤ)) (sc : Option ℚ)
    (hc : h[u]? = some (.complex nm comps sc)) :
    dimOf h (f + 1) u = oprodV (dimOf h f) comps := by
  rw [← mapM_prod_eq_oprodV]
  rw [dimOf, hc]

/-- The ratio product over `u._to_components(p)` is `u.ratio ** p`. -/
theorem oprodV_tcomp_ratio (h : List UnitCell) (f u : ℕ) (p : ℤ) (rb : ℚ)
    (hrb : ratioOf h (f + 1) u = some rb) :
    oprodV (ratioOf h (f + 1)) (tcomp h u p) = some (rb ^ p) := by
  have hatom : oprodV (ratioOf h (f + 1)) [(u, p)] = some (rb ^ p) := by
    unfold oprodV oprodV
    rw [hrb]
    simp
  unfold tcomp
  cases hc : h[u]? with
  | none => exact hatom
  | some cell =>
    cases cell with
    | primary n d => exact hatom
    | derived n p2 r => exact hatom
    | offsetDerived n p2 r o => exact hatom
    | diffDerived n ou => exact hatom
    | complex nm comps sc =>
      show oprodV (ratioOf h (f + 1))
        (if nm.isSome = true ∨ effScale sc ≠ 1 then [(u, p)]
         else if p = 1 then comps else comps.map fun e => (e.1, e.2 * p)) =
        some (rb ^ p)
      by_cases hop : nm.isSome = true ∨ effScale sc ≠ 1
      · rw [if_pos hop]
        exact hatom
      · rw [if_neg hop]
        push_neg at hop
        have hsc : effScale sc = 1 := hop.2
        have hcx := ratioOf_complex_eq h f u nm comps sc hc
        rw [hrb] at hcx
        obtain ⟨x, hx, hxr⟩ := Option.map_eq_some'.mp hcx.symm
        rw [hsc, mul_one] at hxr
        rw [hxr] at hx
        have hx2 : oprodV (ratioOf h (f + 1)) comps = some rb :=
          oprodV_transfer (ratioOf h f) (ratioOf h (f + 1)) comps rb
            (fun e _ r2 hr2 => ratioOf_mono h f (f + 1) e.1 r2 (by omega) hr2) hx
        by_cases hp : p = 1
        · rw [if_pos hp, hp, zpow_one]
          exact hx2
        · rw [if_neg hp]
          exact oprodV_map_powmul (ratioOf h (f + 1)) comps p rb hx2

/-- The dimension product over `u._to_components(p)` is `u.dimension ** p`. -/
theorem oprodV_tcomp_dim (h : List UnitCell) (f u : ℕ) (p : ℤ) (db : ℚ)
    (hdb : dimOf h (f + 1) u = some db) :
    oprodV (dimOf h (f + 1)) (tcomp h u p) = some (db ^ p) := by
  have hatom : oprodV (dimOf h (f + 1)) [(u, p)] = some (db ^ p) := by
    unfold oprodV oprodV
    rw [hdb]
    simp
  unfold tcomp
  cases hc : h[u]? with
  | none => exact hatom
  | some cell =>
    cases cell with
    | primary n d => exact hatom
    | derived n p2 r => exact hatom
    | offsetDerived n p2 r o => exact hatom
    | diffDerived n ou => exact hatom
    | complex nm comps sc =>
      show oprodV (dimOf h (f + 1))
        (if nm.isSome = true ∨ effScale sc ≠ 1 then [(u, p)]
         else if p = 1 then comps else comps.map fun e => (e.1, e.2 * p)) =
        some (db ^ p)
      by_cases hop : nm.isSome = true ∨ effScale sc ≠ 1
      · rw [if_pos hop]
        exact hatom
      · rw [if_neg hop]
        have hcx := dimOf_complex_eq h f u nm comps sc hc
        rw [hdb] at hcx
        have hx2 : oprodV (dimOf h (f + 1)) comps = some db :=
          oprodV_transfer (dimOf h f) (dimOf h (f + 1)) comps db
            (fun e _ d2 hd2 => dimOf_mono h f (f + 1) e.1 d2 (by omega) hd2) hcx.symm
        by_cases hp : p = 1
        · rw [if_pos hp, hp, zpow_one]
          exact hx2
        · rw [if_neg hp]
          exact oprodV_map_powmul (dimOf h (f + 1)) comps p db hx2

/-- A unit with a successfully evaluated ratio has a heap cell. -/
theorem ratioOf_some_cell (h : List UnitCell) (f u : ℕ) (r : ℚ)
    (hr : ratioOf h f u = some r) : ∃ c, h[u]? = some c := by
  cases f with
  | zero => simp [ratioOf] at hr
  | succ f =>
    rw [ratioOf] at hr
    cases hc : h[u]? with
    | none => rw [hc] at hr; cases hr
    | some c => exact ⟨c, hc ▸ rfl⟩

/-- C9: for multiplicative units `a` and `b` whose ratios and dimensions (and
those of all their components) are defined and nonzero, the composite
`(a * b) / b` built by the operators has exactly `a`'s ratio and `a`'s
dimension — the `b` exponents cancel in the derived `ratio`/`dimension`
products, so conversion through `(a * b) / b` scales values exactly as `a`
does. -/
theorem mul_div_cancel_ratio_dim (s : St) (f : ℕ) (a b : ℕ) (s1 s2 : St)
    (u w : ℕ) (ra rb da db : ℚ)
    (hwf : complexWFb s = true)
    (hmul : unitMul s a b = .ok (s1, u))
    (hdiv : unitDiv s1 u b = .ok (s2, w))
    (hra : ratioOf s.heap f a = some ra) (hra0 : ra ≠ 0)
    (hrb : ratioOf s.heap f b = some rb) (hrb0 : rb ≠ 0)
    (hda : dimOf s.heap f a = some da) (hda0 : da ≠ 0)
    (hdb : dimOf s.heap f b = some db) (hdb0 : db ≠ 0)
    (hbnodup : ((tcomp s.heap b 1).map Prod.fst).Nodup)
    (hkeys : ∀ e ∈ tcomp s.heap b 1 ++ tcomp s.heap a 1,
      ∃ r2 d2, ratioOf s.heap f e.1 = some r2 ∧ r2 ≠ 0 ∧
        dimOf s.heap f e.1 = some d2 ∧ d2 ≠ 0) :
    ratioOf s2.heap (f + 3) w = some ra ∧ dimOf s2.heap (f + 3) w = some da := by
  obtain ⟨cb, hcb⟩ := ratioOf_some_cell s.heap f b rb hrb
  obtain ⟨ca, hca⟩ := ratioOf_some_cell s.heap f a ra hra
  simp only [unitMul, hcb] at hmul
  obtain ⟨⟨t1, ht1⟩, ⟨nm1, hu⟩, hwf1⟩ :=
    complexNew_ok_cell s _ none none s1 u hwf hmul
  have hcb1 : s1.heap[b]? = some cb := by
    rw [ht1]; exact getElem?_append_some hcb
  simp only [unitDiv, hcb1] at hdiv
  obtain ⟨⟨t2, ht2⟩, ⟨nm2, hw⟩, _⟩ :=
    complexNew_ok_cell s1 _ none none s2 w hwf1 hdiv
  -- transfer of attribute values into the final heap
  have liftR : ∀ g x r2, ratioOf s.heap g x = some r2 →
      ratioOf s2.heap g x = some r2 := by
    intro g x r2 hx
    rw [ht2, ht1]
    exact ratioOf_append _ _ g x r2 (ratioOf_append _ _ g x r2 hx)
  have liftD : ∀ g x d2, dimOf s.heap g x = some d2 →
      dimOf s2.heap g x = some d2 := by
    intro g x d2 hx
    rw [ht2, ht1]
    exact dimOf_append _ _ g x d2 (dimOf_append _ _ g x d2 hx)
  have liftR1 : ∀ g x r2, ratioOf s1.heap g x = some r2 →
      ratioOf s2.heap g x = some r2 := by
    intro g x r2 hx
    rw [ht2]
    exact ratioOf_append _ _ g x r2 hx
  have liftD1 : ∀ g x d2, dimOf s1.heap g x = some d2 →
      dimOf s2.heap g x = some d2 := by
    intro g x d2 hx
    rw [ht2]
    exact dimOf_append _ _ g x d2 hx
  -- _to_components is stable across the heap extensions
  have tcompB : ∀ p2, tcomp s1.heap b p2 = tcomp s.heap b p2 := by
    intro p2
    rw [ht1]
    exact tcomp_append _ _ b p2 cb hcb
  have tcompB2 : ∀ p2, tcomp s2.heap b p2 = tcomp s.heap b p2 := by
    intro p2
    rw [ht2, ht1]
    rw [tcomp_append _ _ b p2 cb (getElem?_append_some hcb)]
    exact tcomp_append _ _ b p2 cb hcb
  have tcompA2 : tcomp s2.heap a 1 = tcomp s.heap a 1 := by
    rw [ht2, ht1]
    rw [tcomp_append _ _ a 1 ca (getElem?_append_some hca)]
    exact tcomp_append _ _ a 1 ca hca
  have tcompU2 : tcomp s2.heap u 1 = tcomp s1.heap u 1 := by
    rw [ht2]
    exact tcomp_append _ _ u 1 _ hu
  have hu2 : s2.heap[u]? = some (.complex nm1
      (mergeComps (dictInit (tcomp s.heap b 1)) (tcomp s.heap a 1)) none) := by
    rw [ht2]
    exact getElem?_append_some hu
  have htcu : tcomp s2.heap u 1 =
      (if nm1.isSome = true ∨ effScale (none : Option ℚ) ≠ 1 then [(u, (1 : ℤ))]
       else mergeComps (dictInit (tcomp s.heap b 1)) (tcomp s.heap a 1)) := by
    have h0 : tcomp s2.heap u 1 =
        (if nm1.isSome = true ∨ effScale (none : Option ℚ) ≠ 1 then [(u, (1 : ℤ))]
         else if (1 : ℤ) = 1 then
           mergeComps (dictInit (tcomp s.heap b 1)) (tcomp s.heap a 1)
         else (mergeComps (dictInit (tcomp s.heap b 1))
           (tcomp s.heap a 1)).map fun e => (e.1, e.2 * 1)) := by
      unfold tcomp
      rw [hu2]
      rfl
    rw [h0, if_pos (rfl : (1 : ℤ) = 1)]
  -- values at the fuel levels used below
  have hraF1 : ratioOf s2.heap (f + 1) a = some ra :=
    liftR _ a ra (ratioOf_mono s.heap f (f + 1) a ra (by omega) hra)
  have hrbF1 : ratioOf s2.heap (f + 1) b = some rb :=
    liftR _ b rb (ratioOf_mono s.heap f (f + 1) b rb (by omega) hrb)
  have hrbF2 : ratioOf s2.heap (f + 2) b = some rb :=
    liftR _ b rb (ratioOf_mono s.heap f (f + 2) b rb (by omega) hrb)
  have hdaF1 : dimOf s2.heap (f + 1) a = some da :=
    liftD _ a da (dimOf_mono s.heap f (f + 1) a da (by omega) hda)
  have hdbF1 : dimOf s2.heap (f + 1) b = some db :=
    liftD _ b db (dimOf_mono s.heap f (f + 1) b db (by omega) hdb)
  have hdbF2 : dimOf s2.heap (f + 2) b = some db :=
    liftD _ b db (dimOf_mono s.heap f (f + 2) b db (by omega) hdb)
  -- nonzero values for every key of b's and a's component lists
  have hkeyGood : ∀ k, (k ∈ (tcomp s.heap b 1).map Prod.fst ∨
      k ∈ (tcomp s.heap a 1).map Prod.fst) →
      ∃ r2 d2, ratioOf s2.heap (f + 1) k = some r2 ∧ r2 ≠ 0 ∧
        dimOf s2.heap (f + 1) k = some d2 ∧ d2 ≠ 0 := by
    intro k hk
    have hmem : ∃ e ∈ tcomp s.heap b 1 ++ tcomp s.heap a 1, e.1 = k := by
      rcases hk with h1 | h1
      · obtain ⟨e, he, hek⟩ := List.mem_map.mp h1
        exact ⟨e, List.mem_append_left _ he, hek⟩
      · obtain ⟨e, he, hek⟩ := List.mem_map.mp h1
        exact ⟨e, List.mem_append_right _ he, hek⟩
    obtain ⟨e, he, rfl⟩ := hmem
    obtain ⟨r2, d2, her, hr0, hed, hd0⟩ := hkeys e he
    exact ⟨r2, d2,
      liftR _ _ r2 (ratioOf_mono s.heap f (f + 1) e.1 r2 (by omega) her), hr0,
      liftD _ _ d2 (dimOf_mono s.heap f (f + 1) e.1 d2 (by omega) hed), hd0⟩
  -- the component products of a*b
  have hI1 : dictInit (tcomp s.heap b 1) = tcomp s.heap b 1 :=
    dictInit_eq_self _ hbnodup
  have hbmnodup : ((tcomp s.heap b (-1)).map Prod.fst).Nodup := by
    rw [tcomp_keys_eq]; exact hbnodup
  have hI2 : dictInit (tcomp s.heap b (-1)) = tcomp s.heap b (-1) :=
    dictInit_eq_self _ hbmnodup
  have hPb : oprodV (ratioOf s2.heap (f + 1)) (tcomp s.heap b 1) =
      some (rb ^ (1 : ℤ)) := by
    rw [← tcompB2]
    exact oprodV_tcomp_ratio s2.heap f b 1 rb hrbF1
  have hPa : oprodV (ratioOf s2.heap (f + 1)) (tcomp s.heap a 1) =
      some (ra ^ (1 : ℤ)) := by
    have := oprodV_tcomp_ratio s2.heap f a 1 ra hraF1
    rwa [tcompA2] at this
  have hPM1 : oprodV (ratioOf s2.heap (f + 1))
      (mergeComps (dictInit (tcomp s.heap b 1)) (tcomp s.heap a 1)) =
      some (rb ^ (1 : ℤ) * ra ^ (1 : ℤ)) := by
    rw [hI1]
    refine oprodV_mergeComps _ _ _ _ _ hbnodup hPb hPa ?_
    intro e he
    obtain ⟨r2, d2, her, hr0, _, _⟩ := hkeyGood e.1
      (Or.inr (List.mem_map_of_mem _ he))
    exact ⟨r2, her, hr0⟩
  have hru : ratioOf s2.heap (f + 2) u = some (rb * ra) := by
    rw [ratioOf_complex_eq s2.heap (f + 1) u nm1 _ none hu2, hPM1]
    simp [effScale]
  -- the component products of (a*b)/b
  have hPu : oprodV (ratioOf s2.heap (f + 2)) (tcomp s2.heap u 1) =
      some ((rb * ra) ^ (1 : ℤ)) :=
    oprodV_tcomp_ratio s2.heap (f + 1) u 1 (rb * ra) hru
  have hPbm : oprodV (ratioOf s2.heap (f + 2)) (tcomp s.heap b (-1)) =
      some (rb ^ (-1 : ℤ)) := by
    rw [← tcompB2]
    exact oprodV_tcomp_ratio s2.heap (f + 1) b (-1) rb hrbF2
  -- every key of u's components has a nonzero ratio at fuel f+2
  have hukeys : ∀ e ∈ tcomp s2.heap u 1,
      ∃ r2, ratioOf s2.heap (f + 2) e.1 = some r2 ∧ r2 ≠ 0 := by
    intro e he
    have hks : e.1 ∈ (tcomp s2.heap u 1).map Prod.fst :=
      List.mem_map_of_mem _ he
    rw [htcu] at hks
    by_cases hop : nm1.isSome = true ∨ effScale (none : Option ℚ) ≠ 1
    · rw [if_pos hop] at hks
      simp only [List.map_cons, List.map_nil, List.mem_singleton] at hks
      subst hks
      exact ⟨rb * ra, hru, mul_ne_zero hrb0 hra0⟩
    · rw [if_neg hop] at hks
      have := mergeComps_keys_sub _ _ e.1 hks
      rcases this with h1 | h1
      · have h2 := dictInit_keys_sub _ e.1 h1
        obtain ⟨r2, d2, her, hr0, _, _⟩ := hkeyGood e.1 (Or.inl h2)
        exact ⟨r2, ratioOf_mono s2.heap (f + 1) (f + 2) e.1 r2 (by omega) her,
          hr0⟩
      · obtain ⟨r2, d2, her, hr0, _, _⟩ := hkeyGood e.1 (Or.inr h1)
        exact ⟨r2, ratioOf_mono s2.heap (f + 1) (f + 2) e.1 r2 (by omega) her,
          hr0⟩
  have hPM2 : oprodV (ratioOf s2.heap (f + 2))
      (mergeComps (dictInit (tcomp s1.heap b (-1))) (tcomp s1.heap u 1)) =
      some (rb ^ (-1 : ℤ) * (rb * ra) ^ (1 : ℤ)) := by
    rw [tcompB (-1), ← tcompU2, hI2]
    exact oprodV_mergeComps _ _ _ _ _ hbmnodup hPbm hPu hukeys
  have hratio : ratioOf s2.heap (f + 3) w = some ra := by
    rw [ratioOf_complex_eq s2.heap (f + 2) w nm2 _ none hw, hPM2]
    simp only [effScale, Option.getD, Option.map_some']
    congr 1
    rw [zpow_neg_one, zpow_one, mul_one]
    field_simp
  refine ⟨hratio, ?_⟩
  -- and the same chain for dimensions
  have hDb : oprodV (dimOf s2.heap (f + 1)) (tcomp s.heap b 1) =
      some (db ^ (1 : ℤ)) := by
    rw [← tcompB2]
    exact oprodV_tcomp_dim s2.heap f b 1 db hdbF1
  have hDa : oprodV (dimOf s2.heap (f + 1)) (tcomp s.heap a 1) =
      some (da ^ (1 : ℤ)) := by
    have := oprodV_tcomp_dim s2.heap f a 1 da hdaF1
    rwa [tcompA2] at this
  have hDM1 : oprodV (dimOf s2.heap (f + 1))
      (mergeComps (dictInit (tcomp s.heap b 1)) (tcomp s.heap a 1)) =
      some (db ^ (1 : ℤ) * da ^ (1 : ℤ)) := by
    rw [hI1]
    refine oprodV_mergeComps _ _ _ _ _ hbnodup hDb hDa ?_
    intro e he
    obtain ⟨r2, d2, _, _, hed, hd0⟩ := hkeyGood e.1
      (Or.inr (List.mem_map_of_mem _ he))
    exact ⟨d2, hed, hd0⟩
  have hdu : dimOf s2.heap (f + 2) u = some (db * da) := by
    rw [dimOf_complex_eq s2.heap (f + 1) u nm1 _ none hu2, hDM1]
    simp
  have hDu : oprodV (dimOf s2.heap (f + 2)) (tcomp s2.heap u 1) =
      some ((db * da) ^ (1 : ℤ)) :=
    oprodV_tcomp_dim s2.heap (f + 1) u 1 (db * da) hdu
  have hDbm : oprodV (dimOf s2.heap (f + 2)) (tcomp s.heap b (-1)) =
      some (db ^ (-1 : ℤ)) := by
    rw [← tcompB2]
    exact oprodV_tcomp_dim s2.heap (f + 1) b (-1) db hdbF2
  have hukeysD : ∀ e ∈ tcomp s2.heap u 1,
      ∃ d2, dimOf s2.heap (f + 2) e.1 = some d2 ∧ d2 ≠ 0 := by
    intro e he
    have hks : e.1 ∈ (tcomp s2.heap u 1).map Prod.fst :=
      List.mem_map_of_mem _ he
    rw [htcu] at hks
    by_cases hop : nm1.isSome = true ∨ effScale (none : Option ℚ) ≠ 1
    · rw [if_pos hop] at hks
      simp only [List.map_cons, List.map_nil, List.mem_singleton] at hks
      subst hks
      exact ⟨db * da, hdu, mul_ne_zero hdb0 hda0⟩
    · rw [if_neg hop] at hks
      have := mergeComps_keys_sub _ _ e.1 hks
      rcases this with h1 | h1
      · have h2 := dictInit_keys_sub _ e.1 h1
        obtain ⟨r2, d2, _, _, hed, hd0⟩ := hkeyGood e.1 (Or.inl h2)
        exact ⟨d2, dimOf_mono s2.heap (f + 1) (f + 2) e.1 d2 (by omega) hed,
          hd0⟩
      · obtain ⟨r2, d2, _, _, hed, hd0⟩ := hkeyGood e.1 (Or.inr h1)
        exact ⟨d2, dimOf_mono s2.heap (f + 1) (f + 2) e.1 d2 (by omega) hed,
          hd0⟩
  have hDM2 : oprodV (dimOf s2.heap (f + 2))
      (mergeComps (dictInit (tcomp s1.heap b (-1))) (tcomp s1.heap u 1)) =
      some (db ^ (-1 : ℤ) * (db * da) ^ (1 : ℤ)) := by
    rw [tcompB (-1), ← tcompU2, hI2]
    exact oprodV_mergeComps _ _ _ _ _ hbmnodup hDbm hDu hukeysD
  rw [dimOf_complex_eq s2.heap (f + 2) w nm2 _ none hw, hDM2]
  congr 1
  rw [zpow_neg_one, zpow_one]
  field_simp

deriving instance DecidableEq for Except

/-- Scenario: primaries `m` (dimension 2) and `s` (dimension 3). -/
def s9 : St :=
  ⟨[.primary (some "m") 2, .primary (some "sec") 3], [(2, 0), (3, 1)], [], [], []⟩

/-- `s9` after `m * sec` (the product complex unit sits at index 2). -/
def s9m : St :=
  ⟨[.primary (some "m") 2, .primary (some "sec") 3,
    .complex none [(1, 1), (0, 1)] none], [(2, 0), (3, 1)], [],
    [(([(1, 1), (0, 1)], none), 2)], []⟩

/-- `s9m` after `(m * sec) / sec` (the quotient complex unit at index 3 keeps
`sec` at exponent 0). -/
def s9d : St :=
  ⟨[.primary (some "m") 2, .primary (some "sec") 3,
    .complex none [(1, 1), (0, 1)] none,
    .complex none [(1, 0), (0, 1)] none], [(2, 0), (3, 1)], [],
    [(([(1, 1), (0, 1)], none), 2), (([(1, 0), (0, 1)], none), 3)], []⟩

/-- C9 witness: `(m * sec) / sec` has ratio 1 and dimension 2 — exactly `m`'s
ratio and dimension. -/
theorem mul_div_cancel_ratio_dim_witness :
    unitMul s9 0 1 = .ok (s9m, 2) ∧ unitDiv s9m 2 1 = .ok (s9d, 3) ∧
    ratioOf s9d.heap 4 3 = some 1 ∧ dimOf s9d.heap 4 3 = some 2 := by
  have h := mul_div_cancel_ratio_dim s9 1 0 1 s9m s9d 2 3 1 1 2 3
    (by decide) (by decide) (by decide)
    rfl one_ne_zero rfl one_ne_zero rfl (by norm_num) rfl (by norm_num)
    (by decide)
    (by
      intro e he
      fin_cases he
      · exact ⟨1, 3, rfl, one_ne_zero, rfl, by norm_num⟩
      · exact ⟨1, 2, rfl, one_ne_zero, rfl, by norm_num⟩)
  exact ⟨by decide, by decide, h.1, h.2⟩
